import Mathlib

/-!
Verification development for the plaque literate-notebook engine.

The definitions below are shallow embeddings of the engine's components:
the cell model (`cell.py`), the line-based parser (`parser.py`), the
AST-based parser (`ast_parser.py`), the rich-display resolution
(`display.py`), the plain execution environment (`environment.py`), the
IPython-kernel environment (`ipython_environment.py`), and the processor
(`processor.py`) together with the dependency analyzer it calls.

Python strings are modelled as Lean `String`s, with the handful of Python
string methods the code uses (`strip`, `rstrip`, `startswith`, `endswith`,
`removeprefix`, `removesuffix`, `split`, slicing) re-implemented
structurally over `List Char` so that every definition evaluates inside
the kernel.  External Python capabilities (the byte-code compiler, the
interpreter's `exec`/`eval`, `ast.parse`, the IPython kernel, stdlib
helpers such as `html.escape`) are passed in as explicit oracle data, so
theorems quantify over every possible behaviour of those capabilities.
-/

namespace Plaque

/-! ### Python string primitives -/

/-- The whitespace characters recognised by Python's `str.strip()`
(space, tab, newline, carriage return, form feed, vertical tab). -/
def isPySpace (c : Char) : Bool :=
  c = ' ' || c = '\t' || c = '\n' || c = '\x0d' || c = '\x0c' || c = '\x0b'

/-- Remove leading whitespace from a character list. -/
def dropSpaceLeft : List Char → List Char
  | [] => []
  | c :: cs => if isPySpace c then dropSpaceLeft cs else c :: cs

/-- Python `s.lstrip()`. -/
def pyLStrip (s : String) : String := ⟨dropSpaceLeft s.data⟩

/-- Python `s.rstrip()`. -/
def pyRStrip (s : String) : String := ⟨(dropSpaceLeft s.data.reverse).reverse⟩

/-- Python `s.strip()`. -/
def pyStrip (s : String) : String := ⟨dropSpaceLeft (dropSpaceLeft s.data.reverse).reverse⟩

/-- Character-list version of "is a leading segment of". -/
def leadsList : List Char → List Char → Bool
  | [], _ => true
  | _ :: _, [] => false
  | a :: as, b :: bs => a = b && leadsList as bs

/-- Python `s.startswith(p)`. -/
def pyStarts (s p : String) : Bool := leadsList p.data s.data

/-- Python `s.endswith(p)`. -/
def pyEnds (s p : String) : Bool := leadsList p.data.reverse s.data.reverse

/-- Python `len(s)`. -/
def pyLen (s : String) : Nat := s.data.length

/-- Python `s.removeprefix(p)`: drop `p` from the front only when present. -/
def pyCutStart (s p : String) : String :=
  if pyStarts s p then ⟨s.data.drop p.data.length⟩ else s

/-- Python `s.removesuffix(p)`: drop `p` from the end only when present. -/
def pyCutEnd (s p : String) : String :=
  if pyEnds s p then ⟨s.data.take (s.data.length - p.data.length)⟩ else s

/-- Python slice `s[n:]`. -/
def pySliceFrom (s : String) (n : Nat) : String := ⟨s.data.drop n⟩

/-- Python slice `s[:-n]` (for `n ≤ len s`). -/
def pySliceUpToNeg (s : String) (n : Nat) : String := ⟨s.data.take (s.data.length - n)⟩

/-- Helper for `pySplit`: scan the character list, breaking at each
occurrence of the (non-empty) separator.  The fuel argument is an upper
bound on the number of scan steps (each step consumes at least one
character, so the initial character count suffices); it makes the
recursion structural so that it evaluates inside the kernel. -/
def splitChars (sep : List Char) : Nat → List Char → List Char → List (List Char)
  | _, [], acc => [acc.reverse]
  | 0, l, acc => [acc.reverse ++ l]
  | fuel + 1, c :: cs, acc =>
    if leadsList sep (c :: cs) then
      acc.reverse :: splitChars sep fuel (List.drop (sep.length - 1) cs) []
    else
      splitChars sep fuel cs (c :: acc)

/-- Python `s.split(sep)` for a non-empty separator. -/
def pySplit (s sep : String) : List String :=
  (splitChars sep.data s.data.length s.data []).map (fun l => ⟨l⟩)

/-- Substring test: does `needle` occur anywhere inside `hay`
(Python's `needle in hay`)? -/
def pyIn (needle hay : String) : Bool :=
  (pySplit hay needle).length > 1 || needle.data.length = 0

/-- The single-quote character, and the `'''` delimiter built from it. -/
def sqChar : Char := Char.ofNat 39

/-- The three-character single-quote triple delimiter. -/
def tsq : String := ⟨[sqChar, sqChar, sqChar]⟩

/-- The three-character double-quote triple delimiter. -/
def tdq : String := "\"\"\""

/-! ### Cell model (`cell.py`) -/

/-- `CellType` from `cell.py`. -/
inductive CellType where
  | CODE
  | MARKDOWN
deriving DecidableEq, Repr

/-- The `Cell` dataclass from `cell.py`, extended with the run-record and
analysis fields the processor and the dependency analyzer use
(`stdout`, `stderr`, `provides`, `requires`, `depends_on`).  The result
value type is a parameter `α` because the engine treats evaluator values
as opaque. -/
structure Cell (α : Type) where
  type : CellType
  content : String
  lineno : Nat
  metadata : List (String × String) := []
  error : Option String := none
  result : Option α := none
  counter : Nat := 0
  stdout : String := ""
  stderr : String := ""
  provides : List String := []
  requires : List String := []
  depends_on : List Nat := []
deriving DecidableEq, Repr

/-- `Cell.is_code`. -/
def Cell.is_code {α} (c : Cell α) : Bool := c.type = CellType.CODE

/-- `Cell.is_markdown`. -/
def Cell.is_markdown {α} (c : Cell α) : Bool := c.type = CellType.MARKDOWN

/-! ### Line-based parser (`parser.py`)

`parse_cell_boundary` tokenises a `# %%` marker line with regular
expressions; its output (title, declared cell type, key/value metadata)
is passed in as an oracle `pcb` because none of the verified claims
depend on its internals.  The `parse` state machine itself is modelled
line by line.  Input lines are exactly what Python file iteration
yields: each physical line including its trailing newline (when
present). -/

/-- Result of `parse_cell_boundary`: title, cell type, metadata. -/
structure BoundaryInfo where
  title : String
  celltype : CellType
  metadata : List (String × String)

/-- The four states of `parse`'s state machine. -/
inductive LineState where
  | code
  | markdown
  | tripleSingleQuote
  | tripleDoubleQuote
deriving DecidableEq, Repr

/-- Running state of the `parse` generator: machine state, the cell
being accumulated, and the cells already yielded. -/
structure LPState (α : Type) where
  st : LineState
  cell : Cell α
  out : List (Cell α)

/-- `cell_boundary` from `parse` (parser.py line 69-70). -/
def cellBoundaryLine (line : String) : Bool :=
  pyStarts line "# %%" || pyStarts line tdq || pyStarts line tsq

/-- `{"title": title} | metadata` when a marker has a title: an
association list with the title first (later keys override on lookup,
matching dict-merge semantics). -/
def withTitle (title : String) (md : List (String × String)) : List (String × String) :=
  ("title", title) :: md

/-- Shared handling of a boundary line hit in the `CODE` or `MARKDOWN`
machine state: dispatch on which of the three boundary forms opened,
producing the next machine state, the next accumulating cell and any
cell yielded by a one-line triple-quoted block. -/
def boundaryDispatch {α} (pcb : String → BoundaryInfo) (i : Nat) (line : String)
    (inMarkdown : Bool) : LineState × Cell α × List (Cell α) :=
  if pyStarts line "# %%" then
    let info := pcb line
    let md :=
      if inMarkdown then withTitle info.title info.metadata
      else if info.title ≠ "" then withTitle info.title info.metadata else info.metadata
    let st := if info.celltype = CellType.MARKDOWN then LineState.markdown else LineState.code
    (st, { type := info.celltype, content := "", lineno := i + 1, metadata := md }, [])
  else if pyStarts line tsq then
    let stripped := pyStrip line
    if pyLen stripped > 6 && pyEnds stripped tsq then
      let yielded : Cell α :=
        { type := CellType.MARKDOWN
          content := pyStrip (pyCutEnd (pyRStrip (pyCutStart line tsq)) tsq)
          lineno := i + 1 }
      (LineState.code, { type := CellType.CODE, content := "", lineno := i + 2 }, [yielded])
    else
      (LineState.tripleSingleQuote,
       { type := CellType.MARKDOWN, content := "", lineno := i + 1 }, [])
  else
    let stripped := pyStrip line
    if pyLen stripped > 6 && pyEnds stripped tdq then
      let yielded : Cell α :=
        { type := CellType.MARKDOWN
          content := pyStrip (pyCutEnd (pyRStrip (pyCutStart line tdq)) tdq)
          lineno := i + 1 }
      (LineState.code, { type := CellType.CODE, content := "", lineno := i + 2 }, [yielded])
    else
      (LineState.tripleDoubleQuote,
       { type := CellType.MARKDOWN, content := "", lineno := i + 1 }, [])

/-- One step of the `parse` state machine on line index `i` (0-based,
as produced by `enumerate`). -/
def parseStep {α} (pcb : String → BoundaryInfo) (i : Nat) (line : String)
    (s : LPState α) : LPState α :=
  match s.st with
  | LineState.code =>
    if cellBoundaryLine line then
      let flushed :=
        if pyStrip s.cell.content ≠ "" then
          s.out ++ [{ s.cell with content := pyStrip s.cell.content }]
        else s.out
      let (st, cell, extra) := boundaryDispatch (α := α) pcb i line false
      { st := st, cell := cell, out := flushed ++ extra }
    else
      { s with cell := { s.cell with content := s.cell.content ++ line } }
  | LineState.markdown =>
    if cellBoundaryLine line then
      let flushed :=
        if s.cell.content ≠ "" then
          s.out ++ [{ s.cell with content := pyStrip s.cell.content }]
        else s.out
      let (st, cell, extra) := boundaryDispatch (α := α) pcb i line true
      { st := st, cell := cell, out := flushed ++ extra }
    else if ¬ pyStarts line "#" then
      { st := LineState.code
        cell := { type := CellType.CODE, content := "", lineno := i + 1 }
        out := s.out ++ [{ s.cell with content := pyStrip s.cell.content }] }
    else
      { s with cell :=
          { s.cell with content := s.cell.content ++ pyCutStart (pyCutStart line "#") " " } }
  | LineState.tripleSingleQuote =>
    if pyEnds (pyRStrip line) tsq then
      let full := s.cell.content ++ pyCutEnd (pyRStrip line) tsq
      { st := LineState.code
        cell := { type := CellType.CODE, content := "", lineno := i + 2 }
        out := s.out ++ [{ s.cell with content := pyStrip full }] }
    else
      { s with cell := { s.cell with content := s.cell.content ++ line } }
  | LineState.tripleDoubleQuote =>
    if pyEnds (pyRStrip line) tdq then
      let full := s.cell.content ++ pyCutEnd (pyRStrip line) tdq
      { st := LineState.code
        cell := { type := CellType.CODE, content := "", lineno := i + 2 }
        out := s.out ++ [{ s.cell with content := pyStrip full }] }
    else
      { s with cell := { s.cell with content := s.cell.content ++ line } }

/-- `parse` from `parser.py`: fold the state machine over the
enumerated input lines, then flush the trailing cell when its stripped
content is non-empty.  The initial implicit cell is
`Cell(CellType.CODE, "", lineno=0)`. -/
def parse {α} (pcb : String → BoundaryInfo) (lines : List String) : List (Cell α) :=
  let init : LPState α :=
    { st := LineState.code
      cell := { type := CellType.CODE, content := "", lineno := 0 }
      out := [] }
  let final := lines.enum.foldl (fun s (p : Nat × String) => parseStep pcb p.1 p.2 s) init
  if pyStrip final.cell.content ≠ "" then
    final.out ++ [{ final.cell with content := pyStrip final.cell.content }]
  else final.out

/-- A trivial stand-in for the `parse_cell_boundary` oracle, usable on
inputs that contain no `# %%` marker line. -/
def pcb0 : String → BoundaryInfo := fun _ => ⟨"", CellType.CODE, []⟩

/-! ### AST-based parser (`ast_parser.py`)

`ast.parse` is the CPython parser, an external capability: the syntax
tree of the source (or `none`, for a `SyntaxError`) is an oracle input.
Only the node shapes `_find_cell_boundaries` inspects are
distinguished: an expression statement (`ast.Expr`) wrapping a string
constant is a cell boundary; every other node is carried with its
children so that `ast.walk` can be modelled. -/

/-- Abstract CPython AST nodes, with line numbers. -/
inductive PyNode where
  | module (body : List PyNode)
  | exprStmt (lineno : Nat) (value : PyNode)
  | assign (lineno : Nat) (targets : List PyNode) (value : PyNode)
  | constStr (lineno : Nat) (s : String)
  | constOther (lineno : Nat)
  | name (lineno : Nat) (ident : String)
  | other (lineno : Nat) (children : List PyNode)

mutual

/-- Number of nodes in a tree (used to bound the `ast.walk` traversal). -/
def nodeW : PyNode → Nat
  | .module body => 1 + listW body
  | .exprStmt _ v => 1 + nodeW v
  | .assign _ ts v => 1 + listW ts + nodeW v
  | .constStr _ _ => 1
  | .constOther _ => 1
  | .name _ _ => 1
  | .other _ ch => 1 + listW ch

/-- Number of nodes in a forest. -/
def listW : List PyNode → Nat
  | [] => 0
  | n :: l => nodeW n + listW l

end

/-- The child nodes of an AST node (`ast.iter_child_nodes`). -/
def childNodes : PyNode → List PyNode
  | .module body => body
  | .exprStmt _ v => [v]
  | .assign _ ts v => ts ++ [v]
  | .constStr _ _ => []
  | .constOther _ => []
  | .name _ _ => []
  | .other _ ch => ch

/-- Breadth-first traversal queue step for `ast.walk`; the fuel is an
upper bound on the number of nodes still to visit, so with fuel
`nodeW t` the traversal of `t` visits every node. -/
def walkAux : Nat → List PyNode → List PyNode
  | 0, _ => []
  | _ + 1, [] => []
  | fuel + 1, n :: rest => n :: walkAux fuel (rest ++ childNodes n)

/-- `ast.walk(tree)`: every node of the tree, in breadth-first order. -/
def walk (t : PyNode) : List PyNode := walkAux (nodeW t) [t]

/-- The two `boundary_type` tags used by `ASTParser`. -/
inductive BoundaryType where
  | marker
  | stringB
deriving DecidableEq, Repr

/-- `CellBoundary` from `ast_parser.py`. -/
structure CellBoundary where
  line_no : Nat
  boundary_type : BoundaryType
  title : String := ""
  cell_type : CellType := CellType.CODE
  metadata : List (String × String) := []
deriving DecidableEq, Repr

/-- The `# %%` marker scan of `_find_cell_boundaries` (lines 100-117):
one boundary per line whose stripped form starts with `# %%`, with
title/type/metadata from `parse_cell_boundary` (the `pcb` oracle). -/
def markerBoundaries (pcb : String → BoundaryInfo) (lines : List String) :
    List CellBoundary :=
  lines.enum.filterMap fun (p : Nat × String) =>
    if pyStarts (pyStrip p.2) "# %%" then
      let info := pcb p.2
      let md := if info.title ≠ "" then withTitle info.title info.metadata else info.metadata
      some { line_no := p.1 + 1, boundary_type := BoundaryType.marker,
             title := info.title, cell_type := info.celltype, metadata := md }
    else none

/-- The AST scan of `_find_cell_boundaries` (lines 119-136): walk the
tree (when `ast.parse` succeeded) and record a markdown string boundary
for every `ast.Expr` node whose value is a string constant.  On a
`SyntaxError` (`tree = none`) only marker boundaries are used. -/
def stringBoundaries (tree : Option PyNode) : List CellBoundary :=
  match tree with
  | none => []
  | some t =>
    (walk t).filterMap fun n =>
      match n with
      | .exprStmt ln (.constStr _ _) =>
        some { line_no := ln, boundary_type := BoundaryType.stringB,
               cell_type := CellType.MARKDOWN }
      | _ => none

/-- `_find_cell_boundaries`: marker boundaries, then string boundaries,
sorted (stably) by line number. -/
def findCellBoundaries (pcb : String → BoundaryInfo) (lines : List String)
    (tree : Option PyNode) : List CellBoundary :=
  (markerBoundaries pcb lines ++ stringBoundaries tree).insertionSort
    (fun a b => a.line_no ≤ b.line_no)

/-- The three `boundary_type` strings passed to `_extract_cell_content`. -/
inductive ExtractKind where
  | markerK
  | stringK
  | codeK
deriving DecidableEq, Repr

/-- `self.source_lines[i]` (indices are always in range where used). -/
def getLine (lines : List String) (i : Nat) : String := lines.getD i ""

/-- Join content lines with newlines (`"\n".join(...)`). -/
def joinNL : List String → String
  | [] => ""
  | [s] => s
  | s :: rest => s ++ "\n" ++ joinNL rest

/-- The string-extraction loop of `_extract_cell_content` (lines
152-190): scan the given line indices, find the opening triple quote,
collect the string body, and stop at the closing delimiter. -/
def stringScan (lines : List String) : List Nat → Bool → String → List String → List String
  | [], _, _, acc => acc
  | i :: is, false, d, acc =>
    let line := getLine lines i
    if pyStarts (pyStrip line) tdq then
      let content := pySliceFrom (pyStrip line) 3
      if pyEnds content tdq && pyLen content > 3 then acc ++ [pySliceUpToNeg content 3]
      else if content ≠ "" then stringScan lines is true tdq (acc ++ [content])
      else stringScan lines is true tdq acc
    else if pyStarts (pyStrip line) tsq then
      let content := pySliceFrom (pyStrip line) 3
      if pyEnds content tsq && pyLen content > 3 then acc ++ [pySliceUpToNeg content 3]
      else if content ≠ "" then stringScan lines is true tsq (acc ++ [content])
      else stringScan lines is true tsq acc
    else stringScan lines is false d acc
  | i :: is, true, d, acc =>
    let line := getLine lines i
    if pyEnds (pyRStrip line) d then acc ++ [pySliceUpToNeg (pyRStrip line) 3]
    else stringScan lines is true d (acc ++ [line])

/-- `_extract_cell_content(start_line, end_line, boundary_type, ...)`. -/
def extractCellContent (lines : List String) (startL endL : Nat) (k : ExtractKind) :
    String :=
  match k with
  | ExtractKind.stringK =>
    pyStrip (joinNL (stringScan lines
      (List.range' (startL - 1) (min endL lines.length - (startL - 1))) false "" []))
  | _ => pyStrip (joinNL ((lines.drop startL).take (endL - startL)))

/-- The closing-delimiter search loop of `_find_string_end`. -/
def findEndLoop (lines : List String) (d : String) : List Nat → Nat
  | [] => lines.length
  | i :: is => if pyEnds (pyRStrip (getLine lines i)) d then i + 1 else findEndLoop lines d is

/-- `_find_string_end(start_line)`. -/
def findStringEnd (lines : List String) (startL : Nat) : Nat :=
  let line := getLine lines (startL - 1)
  let isSingleDone :=
    if pyStarts (pyStrip line) tdq then
      let content := pySliceFrom (pyStrip line) 3
      pyEnds content tdq && pyLen content > 3
    else if pyStarts (pyStrip line) tsq then
      let content := pySliceFrom (pyStrip line) 3
      pyEnds content tsq && pyLen content > 3
    else false
  if isSingleDone then startL
  else
    let d := if pyStarts (pyStrip line) tdq then tdq else tsq
    findEndLoop lines d (List.range' startL (lines.length - startL))

/-- The boundary-processing loop of `ASTParser.parse` (lines 236-281),
including the trailing-content step. -/
def astCells {α} (lines : List String) : List CellBoundary → Nat → List (Cell α)
  | [], prevEnd =>
    if prevEnd < lines.length then
      let content := extractCellContent lines prevEnd lines.length ExtractKind.codeK
      if pyStrip content ≠ "" then
        [{ type := CellType.CODE, content := content, lineno := prevEnd + 1 }]
      else []
    else []
  | b :: rest, prevEnd =>
    let pre :=
      if b.line_no > prevEnd + 1 then
        let content := extractCellContent lines prevEnd (b.line_no - 1) ExtractKind.codeK
        if pyStrip content ≠ "" then
          [{ type := CellType.CODE, content := content, lineno := prevEnd + 1 }]
        else []
      else []
    let cellEnd :=
      if b.boundary_type = BoundaryType.stringB then findStringEnd lines b.line_no
      else match rest with
        | b2 :: _ => b2.line_no - 1
        | [] => lines.length
    let k :=
      if b.boundary_type = BoundaryType.stringB then ExtractKind.stringK
      else ExtractKind.markerK
    let content := extractCellContent lines b.line_no cellEnd k
    let cur : List (Cell α) :=
      if pyStrip content ≠ "" then
        [{ type := b.cell_type, content := content, lineno := b.line_no,
           metadata := b.metadata }]
      else []
    pre ++ cur ++ astCells lines rest cellEnd

/-- `ASTParser.parse`: split the source into lines, find the cell
boundaries (the syntax tree, or `none` on a `SyntaxError`, is the
`ast.parse` oracle input), and emit cells.  With no boundaries a
non-empty file becomes a single code cell at line 1. -/
def astParse {α} (pcb : String → BoundaryInfo) (source : String) (tree : Option PyNode) :
    List (Cell α) :=
  let lines := pySplit source "\n"
  let bs := findCellBoundaries pcb lines tree
  match bs with
  | [] =>
    if pyStrip source ≠ "" then
      [{ type := CellType.CODE, content := pyStrip source, lineno := 1 }]
    else []
  | _ => astCells lines bs 0

/-! ### Rich display resolution (`display.py`)

`display_as_html` resolves a value through five rules.  A Python object
is modelled by what each probed capability does when called: the
`_display_` capability is encoded in the constructor of `PyObj` (absent,
raising, returning a string, or returning another object — the recursive
case of rule 1), and the remaining capabilities (`_mime_`, the
IPython-style `_repr_*_` methods, the matplotlib-figure branch, `repr`)
live in `ObjFields`.  Stdlib helpers are oracles: `esc` is
`html.escape`, `fmtMd` is `format_markdown`; `base64.b64encode` and
`json.dumps` are folded into the oracle payload carried by the
corresponding attribute (an empty payload encodes a falsy return). -/

/-- Outcome of probing one capability attribute: missing, present but
raising when called, or present and returning a value. -/
inductive AttrRes (γ : Type) where
  | absent
  | raises
  | ret (v : γ)
deriving DecidableEq, Repr

/-- The non-recursive capabilities of an object probed by
`display_as_html`.  For the `_repr_*_` attributes the payload is the
final string form (after `b64encode`/`json.dumps` where the code applies
them); `ret none` models a `None` return and an empty string a falsy
one. -/
structure ObjFields where
  mimeAttr : AttrRes (String × String) := AttrRes.absent
  reprHtmlAttr : AttrRes (Option String) := AttrRes.absent
  reprSvgAttr : AttrRes (Option String) := AttrRes.absent
  reprPngAttr : AttrRes (Option String) := AttrRes.absent
  reprJpegAttr : AttrRes (Option String) := AttrRes.absent
  reprMdAttr : AttrRes (Option String) := AttrRes.absent
  reprLatexAttr : AttrRes (Option String) := AttrRes.absent
  reprJsonAttr : AttrRes (Option String) := AttrRes.absent
  isMplFigure : Bool := false
  mplSave : Except String String := Except.ok ""
  reprStr : String := ""

/-- A Python object as seen by `display_as_html`: the constructor
records what the `_display_` capability does (rule 1), the payload `f`
the remaining capabilities. -/
inductive PyObj where
  | noDisplay (f : ObjFields)
  | displayRaises (f : ObjFields)
  | displayStr (s : String) (f : ObjFields)
  | displayObj (o : PyObj) (f : ObjFields)

/-- Character-wise `html.escape` (with `quote=True`, CPython's
default): `&`, `<`, `>`, `"` and the single quote are replaced. -/
def escChar (c : Char) : List Char :=
  if c = '&' then "&amp;".data
  else if c = '<' then "&lt;".data
  else if c = '>' then "&gt;".data
  else if c = '"' then "&quot;".data
  else if c = sqChar then "&#x27;".data
  else [c]

/-- `html.escape`. -/
def htmlEscape (s : String) : String := ⟨(s.data.map escChar).flatten⟩

/-- Wrap a string the way `display_as_html`'s fallback and plain-text
paths do. -/
def preWrap (esc : String → String) (s : String) : String :=
  "<pre class=\"result-output\">" ++ esc s ++ "</pre>"

/-- `_render_mime_data`. -/
def renderMimeData (esc : String → String) (mime data : String) : String :=
  let m : String := ⟨mime.data.map (fun c =>
    if 'A' ≤ c && c ≤ 'Z' then Char.ofNat (c.toNat + 32) else c)⟩
  if m = "text/html" then data
  else if m = "text/plain" then preWrap esc data
  else if pyStarts m "image/" then
    "<div class=\"mime-image\"><img src=\"data:" ++ m ++ ";base64," ++ data ++
      "\" style=\"max-width: 100%; height: auto;\"></div>"
  else if m = "application/json" then
    "<pre class=\"json-output\">" ++ esc data ++ "</pre>"
  else preWrap esc data

/-- A `_repr_*_` probe succeeds when the attribute exists, its call does
not raise, and the returned value is truthy; exceptions are swallowed
(`except Exception: pass`). -/
def attrHit (a : AttrRes (Option String)) : Option String :=
  match a with
  | AttrRes.ret (some s) => if s ≠ "" then some s else none
  | _ => none

/-- `_try_ipython_reprs`: probe the IPython-style representation
methods in order of preference. -/
def tryIpythonReprs (esc fmtMd : String → String) (f : ObjFields) : Option String :=
  match attrHit f.reprHtmlAttr with
  | some h => some h
  | none =>
  match attrHit f.reprSvgAttr with
  | some s => some ("<div class=\"svg-output\">" ++ s ++ "</div>")
  | none =>
  match attrHit f.reprPngAttr with
  | some p => some ("<div class=\"png-output\"><img src=\"data:image/png;base64," ++ p ++
      "\" style=\"max-width: 100%; height: auto;\"></div>")
  | none =>
  match attrHit f.reprJpegAttr with
  | some j => some ("<div class=\"jpeg-output\"><img src=\"data:image/jpeg;base64," ++ j ++
      "\" style=\"max-width: 100%; height: auto;\"></div>")
  | none =>
  match attrHit f.reprMdAttr with
  | some m => some ("<div class=\"markdown-output\">" ++ fmtMd m ++ "</div>")
  | none =>
  match attrHit f.reprLatexAttr with
  | some l => some ("<div class=\"math-block\">\\[" ++ l ++ "\\]</div>")
  | none =>
  match attrHit f.reprJsonAttr with
  | some j => some ("<pre class=\"json-output\">" ++ esc j ++ "</pre>")
  | none => none

/-- `_handle_builtin_types`: the matplotlib-figure branch (the
DataFrame and PIL branches in the source are commented out). -/
def handleBuiltinTypes (f : ObjFields) : Option String :=
  if f.isMplFigure then
    match f.mplSave with
    | Except.ok b64 =>
      some ("<div class=\"matplotlib-figure\"><img src=\"data:image/png;base64," ++ b64 ++
        "\" style=\"max-width: 100%; height: auto;\"></div>")
    | Except.error e =>
      some ("<div class=\"matplotlib-figure error\">Error displaying plot: " ++ e ++ "</div>")
  else none

/-- Rules 2-5 of `display_as_html`: `_mime_`, the IPython reprs, the
built-in types, and the `repr` fallback. -/
def laterRules (esc fmtMd : String → String) (f : ObjFields) : String :=
  match f.mimeAttr with
  | AttrRes.ret (m, d) => renderMimeData esc m d
  | _ =>
    match tryIpythonReprs esc fmtMd f with
    | some h => h
    | none =>
      match handleBuiltinTypes f with
      | some h => h
      | none => preWrap esc f.reprStr

/-- `display_as_html`.  Rule 1 (`_display_`) comes first: a string
result is rendered by `_render_display_result`'s string branch, any
other object result recurses into `display_as_html` (the source has no
depth bound on this recursion); an absent attribute or a raising call
falls through to the later rules. -/
def displayAsHtml (esc fmtMd : String → String) : PyObj → String
  | PyObj.displayStr s _ =>
    if pyStarts (pyStrip s) "<" && pyEnds (pyStrip s) ">" then s
    else preWrap esc s
  | PyObj.displayObj o _ => displayAsHtml esc fmtMd o
  | PyObj.noDisplay f => laterRules esc fmtMd f
  | PyObj.displayRaises f => laterRules esc fmtMd f

/-- A chain of `n` objects each of whose `_display_` returns the next
object, ending in an object with no capabilities and `repr` text
`bottom`. -/
def displayChain : Nat → PyObj
  | 0 => PyObj.noDisplay { reprStr := "bottom" }
  | n + 1 => PyObj.displayObj (displayChain n) {}

/-! ### Execution environment (`environment.py`, class `Environment`)

`Environment.execute_cell` drives the CPython compiler and interpreter;
those are external capabilities, so one cell execution is parameterised
by a `Behavior` describing what each of them does on this cell:
`ast.parse` (statement count and whether the final statement is an
`ast.Expr`, or a `SyntaxError`), the three `compile` calls, the
`exec`/`eval` calls (each with the text they write to the redirected
stdout/stderr and an optional raised exception), the figures captured by
`capture_matplotlib_plots`, and the `_is_matplotlib_return_value`
predicate.  Values of the embedded language are an opaque type `V`;
Python `None` is `Option.none`. -/

/-- A `SyntaxError` raised by `ast.parse`/`compile`. -/
structure SynErr where
  msg : String
  lineno : Option Nat := none
  offset : Option Nat := none
deriving DecidableEq, Repr

/-- A runtime exception: its type name, message, and the lines produced
by `traceback.format_exception` (an oracle: the traceback module is
external). -/
structure PyExc where
  kind : String
  msg : String
  tbLines : List String := []
deriving DecidableEq, Repr

/-- One `exec` call: the text it wrote to the redirected streams before
returning or raising, and the exception it raised, if any. -/
structure ExecStep where
  stdoutW : String := ""
  stderrW : String := ""
  raised : Option PyExc := none
deriving DecidableEq, Repr

/-- One `eval` call: stream writes, and either a raised exception or
the value of the expression (`none` is Python `None`). -/
structure EvalStep (V : Type) where
  stdoutW : String := ""
  stderrW : String := ""
  res : Except PyExc (Option V) := Except.ok none

/-- Everything the external interpreter does during one
`execute_cell` call. -/
structure Behavior (V : Type) where
  parsed : Except SynErr (Nat × Bool)
  compilePre : Except String Unit := Except.ok ()
  execPre : ExecStep := {}
  compileLast : Except String Unit := Except.ok ()
  evalLast : EvalStep V := {}
  compileAll : Except String Unit := Except.ok ()
  execAll : ExecStep := {}
  figures : List V := []
  isMplValue : V → Bool := fun _ => false

/-- `"{:3d}".format(i)`: right-align in width 3. -/
def fmt3 (n : Nat) : String :=
  if n < 10 then "  " ++ toString n
  else if n < 100 then " " ++ toString n
  else toString n

/-- A run of `n` spaces. -/
def spaces (n : Nat) : String := ⟨List.replicate n ' '⟩

/-- `Environment._format_syntax_error`. -/
def formatSyntaxError (e : SynErr) (source : String) : String :=
  let lines := pySplit source "\n"
  let errorLine := match e.lineno with
    | some n => if n ≠ 0 then n else 1
    | none => 1
  let startLine := max 1 (errorLine - 2)
  let endLine := min lines.length (errorLine + 2)
  let rows := ((List.range' startLine (endLine + 1 - startLine)).map (fun i =>
    if i ≤ lines.length then
      let lineContent := getLine lines (i - 1)
      let pre := if i = errorLine then ">>> " else "    "
      let row := pre ++ fmt3 i ++ ": " ++ lineContent
      let pointer :=
        if i = errorLine then
          match e.offset with
          | some off => if off ≠ 0 then [spaces (pyLen pre + 4 + off - 1) ++ "^"] else []
          | none => []
        else []
      row :: pointer
    else []))
    |>.flatten
  joinNL (["SyntaxError: " ++ e.msg, "\nContext:"] ++ rows)

/-- The traceback-filtering loop of `Environment._format_runtime_error`
(lines 458-485).  The `int()` of the line number is `String.toNat?`;
`traceback.format_exception` always renders an integer there, and a
missing number falls to the `except IndexError` branch. -/
def tbFilter : List String → Bool → List String → List String
  | [], _, acc => acc
  | line :: rest, inCell, acc =>
    if pyIn "<cell>" line then
      let acc' :=
        if pyIn "line " line then
          let numStr := getLine (pySplit (getLine (pySplit line "line ") 1) ",") 0
          match numStr.toNat? with
          | some n => acc ++ ["  Line " ++ toString n ++ " in cell"]
          | none => acc ++ ["  In cell"]
        else acc
      tbFilter rest true acc'
    else if inCell &&
        ¬ (pyIn "plaque/" line || pyIn "environment.py" line || pyIn "File \"/" line) then
      tbFilter rest inCell (acc ++ ["    " ++ pyStrip line])
    else if pyIn "Traceback" line then
      tbFilter rest inCell acc
    else if ¬ (pyIn "plaque/" line || pyIn "environment.py" line ||
        pyIn "site-packages/" line) then
      tbFilter rest inCell (acc ++ [pyRStrip line])
    else
      tbFilter rest inCell acc

/-- `Environment._format_runtime_error`. -/
def formatRuntimeError (e : PyExc) (_source : String) : String :=
  let header := e.kind ++ ": " ++ e.msg
  let cellTbLines := tbFilter e.tbLines false []
  if cellTbLines ≠ [] then
    joinNL ([header, "\nTraceback:"] ++ cellTbLines)
  else header

/-- The post-execution result assignment of `execute_cell` (lines
356-369): captured figures win, matplotlib return values are
suppressed, otherwise an expression cell stores its value. -/
def assignResult {V} (b : Behavior V) (isExpr : Bool) (v : Option V)
    (cell : Cell V) : Cell V :=
  match b.figures with
  | fig :: _ => { cell with result := some fig }
  | [] =>
    match v with
    | some val =>
      if isExpr && b.isMplValue val then { cell with result := none }
      else if isExpr then { cell with result := some val }
      else cell
    | none => cell

/-- The tail of the expression-cell path of `execute_cell` (compile and
evaluate the final expression), entered with the stream output the
preceding statements produced. -/
def exprTail {V} (b : Behavior V) (cell : Cell V) (counter : Nat)
    (o1 e1 : String) : Cell V × Nat :=
  match b.compileLast with
  | Except.error msg => ({ cell with error := some msg }, counter)
  | Except.ok _ =>
    match b.evalLast.res with
    | Except.error exc =>
      ({ cell with stdout := o1 ++ b.evalLast.stdoutW,
                   stderr := e1 ++ b.evalLast.stderrW,
                   error := some (formatRuntimeError exc cell.content) }, counter)
    | Except.ok v =>
      let cell1 := { cell with stdout := o1 ++ b.evalLast.stdoutW,
                               stderr := e1 ++ b.evalLast.stderrW }
      (assignResult b true v cell1, counter)

/-- `Environment.execute_cell`: clear the previous run record, assign
and advance the counter, then run the parse / compile / execute /
post-process pipeline.  Every failure is recorded in `cell.error`; the
function is total (no exception escapes). -/
def executeCell {V} (b : Behavior V) (cell : Cell V) (counter : Nat) :
    Cell V × Nat :=
  let cell0 : Cell V :=
    { cell with result := none, error := none, stdout := "", stderr := "",
                counter := counter }
  let counter1 := counter + 1
  match b.parsed with
  | Except.error e =>
    ({ cell0 with error := some (formatSyntaxError e cell.content) }, counter1)
  | Except.ok (nstmts, lastIsExpr) =>
    if nstmts = 0 then (cell0, counter1)
    else if lastIsExpr then
      if nstmts > 1 then
        match b.compilePre with
        | Except.error msg => ({ cell0 with error := some msg }, counter1)
        | Except.ok _ =>
          match b.execPre.raised with
          | some exc =>
            ({ cell0 with stdout := b.execPre.stdoutW, stderr := b.execPre.stderrW,
                          error := some (formatRuntimeError exc cell.content) }, counter1)
          | none => exprTail b cell0 counter1 b.execPre.stdoutW b.execPre.stderrW
      else exprTail b cell0 counter1 "" ""
    else
      match b.compileAll with
      | Except.error msg => ({ cell0 with error := some msg }, counter1)
      | Except.ok _ =>
        match b.execAll.raised with
        | some exc =>
          ({ cell0 with stdout := b.execAll.stdoutW, stderr := b.execAll.stderrW,
                        error := some (formatRuntimeError exc cell.content) }, counter1)
        | none =>
          let cell1 := { cell0 with stdout := b.execAll.stdoutW,
                                    stderr := b.execAll.stderrW }
          (assignResult b false none cell1, counter1)

/-- Whether an `Except` is a success. -/
def okB {ε γ : Type} : Except ε γ → Bool
  | Except.ok _ => true
  | Except.error _ => false

/-- Whether the run of a cell completed, i.e. reached the end of
`execute_cell` without a syntax error, compile failure, or raised
exception. -/
def runCompleted {V} (b : Behavior V) : Bool :=
  match b.parsed with
  | Except.error _ => false
  | Except.ok (nstmts, lastIsExpr) =>
    if nstmts = 0 then true
    else if lastIsExpr then
      (decide (nstmts ≤ 1) || (okB b.compilePre && b.execPre.raised = none)) &&
        okB b.compileLast && okB b.evalLast.res
    else okB b.compileAll && b.execAll.raised = none

/-- The exception of a run that raised at `exec`/`eval` time, together
with the stream text accumulated in the redirect buffers at the moment
of the raise (`none` when no exception was raised). -/
def raiseOutcome {V} (b : Behavior V) : Option (PyExc × String × String) :=
  match b.parsed with
  | Except.error _ => none
  | Except.ok (nstmts, lastIsExpr) =>
    if nstmts = 0 then none
    else if lastIsExpr then
      if nstmts > 1 then
        match b.compilePre with
        | Except.error _ => none
        | Except.ok _ =>
          match b.execPre.raised with
          | some exc => some (exc, b.execPre.stdoutW, b.execPre.stderrW)
          | none =>
            match b.compileLast with
            | Except.error _ => none
            | Except.ok _ =>
              match b.evalLast.res with
              | Except.error exc =>
                some (exc, b.execPre.stdoutW ++ b.evalLast.stdoutW,
                      b.execPre.stderrW ++ b.evalLast.stderrW)
              | Except.ok _ => none
      else
        match b.compileLast with
        | Except.error _ => none
        | Except.ok _ =>
          match b.evalLast.res with
          | Except.error exc => some (exc, b.evalLast.stdoutW, b.evalLast.stderrW)
          | Except.ok _ => none
    else
      match b.compileAll with
      | Except.error _ => none
      | Except.ok _ =>
        match b.execAll.raised with
        | some exc => some (exc, b.execAll.stdoutW, b.execAll.stderrW)
        | none => none

/-- A sequence of `execute_cell` calls against the same environment
counter, returning the executed cells and the final counter. -/
def runSeq {V} : List (Behavior V × Cell V) → Nat → List (Cell V) × Nat
  | [], counter => ([], counter)
  | (b, c) :: rest, counter =>
    let p := executeCell b c counter
    let q := runSeq rest p.2
    (p.1 :: q.1, q.2)

/-! ### IPython-kernel environment (`ipython_environment.py`)

`IPythonEnvironment.execute_cell` delegates to
`IPythonKernelManager.execute`, which returns an `ExecutionResult`
assembled from kernel messages; the kernel is an external capability,
so the reply (or the exception `kernel.execute` raised, already
formatted as `type(e).__name__: str(e)`) is an oracle input.  `O` is
the type of kernel MIME bundles, `conv` is `_convert_output`. -/

/-- `ExecutionResult` from `ipython_kernel.py` (`output = none` models
a falsy — absent or empty — output bundle). -/
structure KernelReply (O : Type) where
  output : Option O := none
  stdoutK : String := ""
  stderrK : String := ""
  errorK : Option String := none
  execution_count : Nat := 0
  display_data : List O := []

/-- `IPythonEnvironment.execute_cell` (lines 68-121). -/
def iexecuteCell {O V} (conv : O → Option V) (kres : Except String (KernelReply O))
    (cell : Cell V) (counter : Nat) : Cell V × Nat :=
  let cell0 : Cell V :=
    { cell with result := none, error := none, stdout := "", stderr := "",
                counter := counter }
  let counter1 := counter + 1
  match kres with
  | Except.error msg => ({ cell0 with error := some msg }, counter1)
  | Except.ok r =>
    let c1 := { cell0 with stdout := r.stdoutK, stderr := r.stderrK, error := r.errorK }
    let c2 :=
      match r.output with
      | some o => { c1 with result := conv o }
      | none => c1
    let c3 :=
      match c2.result, r.display_data with
      | none, d :: _ => { c2 with result := conv d }
      | _, _ => c2
    if r.execution_count > 0 then
      ({ c3 with counter := r.execution_count }, r.execution_count + 1)
    else (c3, counter1)

/-! ### Dependency analyzer and processor (`processor.py`)

`processor.py` imports `build_dependency_graph`, `detect_changed_cells`
and `find_cells_to_rerun` from `dependency_analyzer`, and
`empty_code_cell` / `Cell.copy_execution` from `cell.py`; those
definitions are not part of the studied sources, so they are modelled
from the specification (§4.2-§4.3) below and marked as such.  The
static analysis itself (`provides`/`requires` from a cell's syntax
tree) is a pure function of the cell source, §4.2; it is passed in as
an `Analyzer` oracle. -/

/-- The dependency analyzer's per-cell static analysis (§4.2): the
names a source fragment binds and the free names it reads, as pure
functions of the source text. -/
structure Analyzer where
  provides : String → List String
  requires : String → List String

/-- Modelled from the spec: `Cell.copy_execution` of the missing
`cell.py` helper — carry the RunRecord (§3: counter, stdout, stderr,
value, error) of a previously run cell onto a freshly parsed one. -/
def copyExecution {α} (dst src : Cell α) : Cell α :=
  { dst with counter := src.counter, stdout := src.stdout, stderr := src.stderr,
             result := src.result, error := src.error }

/-- Modelled from the spec: `empty_code_cell` of the missing `cell.py`
helper — the default a new code cell is compared against when the
previous pass ran out of code cells (its content is empty). -/
def emptyCodeCell {α} : Cell α := { type := CellType.CODE, content := "", lineno := 0 }

/-- The "latest provider" of name `n` before position `i` (§4.3 Phase
2): the largest position `j < i` whose code cell provides `n`. -/
def latestProvider {α} (cells : List (Cell α)) (i : Nat) (n : String) : Option Nat :=
  (List.range i).reverse.find? (fun j =>
    match cells.get? j with
    | some cj => cj.is_code && cj.provides.contains n
    | none => false)

/-- The dependency edges out of position `i`: one latest provider per
required name (names with no provider yield no edge). -/
def dependsOnOf {α} (cells : List (Cell α)) (i : Nat) : List Nat :=
  match cells.get? i with
  | some ci => ci.requires.filterMap (latestProvider cells i)
  | none => []

/-- The per-cell annotation step of the dependency analyzer (§4.2):
code cells receive their `provides`/`requires` sets, prose cells are
untouched. -/
def annotateCell {α} (A : Analyzer) (c : Cell α) : Cell α :=
  if c.is_code then
    { c with provides := A.provides c.content, requires := A.requires c.content }
  else c

/-- Modelled from the spec: `build_dependency_graph` of the missing
`dependency_analyzer` module — annotate each code cell with its
`provides`/`requires` sets (§4.2) and its `depends_on` edges by the
latest-provider rule (§4.3 Phase 2). -/
def buildDependencyGraph {α} (A : Analyzer) (cells : List (Cell α)) : List (Cell α) :=
  let annotated := cells.map (annotateCell A)
  annotated.mapIdx (fun i c =>
    if c.is_code then { c with depends_on := dependsOnOf annotated i } else c)

/-- Content-hash matching of a new cell against the previous pass
(§4.3 Phase 1 tie-breaks): among previous code cells with the same
content, the one at the smallest position-delta, ties broken by the
earliest previous position.  The content hash is used only for
equality (§3), so it is modelled by the content itself. -/
def matchPrev {α} (prev : List (Cell α)) (i : Nat) (content : String) : Option Nat :=
  let dist := fun (j : Nat) => (i - j) + (j - i)
  let cands := (List.range prev.length).filter (fun j =>
    match prev.get? j with
    | some pj => pj.is_code && pj.content = content
    | none => false)
  cands.foldl (fun best j =>
    match best with
    | none => some j
    | some b => if dist j < dist b then some j else some b) none

/-- The content of the latest provider of `n` before `i` (`none` when
no provider exists). -/
def providerContent {α} (cells : List (Cell α)) (i : Nat) (n : String) : Option String :=
  (latestProvider cells i n).bind (fun j => (cells.get? j).map (fun c => c.content))

/-- Ordering-induced change (§4.3 Phase 1): some required name's
nearest earlier provider in the new sequence differs (by content) from
its nearest earlier provider at the matched previous position. -/
def orderingChanged {α} (prev new : List (Cell α)) (i p : Nat) : Bool :=
  match new.get? i with
  | some ci => ci.requires.any (fun n =>
      providerContent new i n ≠ providerContent prev p n)
  | none => false

/-- Modelled from the spec: `detect_changed_cells` of the missing
`dependency_analyzer` module — §4.3 Phase 1.  A new code cell is
changed when it has no content match in the previous pass (content
change / new cell), or its providers moved (ordering-induced change),
or its matched previous cell carries an error (previously errored). -/
def detectChangedCells {α} (prev new : List (Cell α)) : List Nat :=
  (List.range new.length).filter (fun i =>
    match new.get? i with
    | some ci =>
      ci.is_code &&
        (match matchPrev prev i ci.content with
         | none => true
         | some p =>
           orderingChanged prev new i p ||
             (match prev.get? p with
              | some pp => pp.error ≠ none
              | none => false))
    | none => false)

/-- The `depends_on` edges recorded at position `i`. -/
def dependsOnAt {α} (cells : List (Cell α)) (i : Nat) : List Nat :=
  match cells.get? i with
  | some c => c.depends_on
  | none => []

/-- Invalidation-closure membership (§4.3 Phase 3), computed with
structural fuel: position `i` must rerun when it is changed or one of
its dependency edges reaches a position that must rerun.  Edges always
point to strictly earlier positions (§9), so fuel `i` suffices; the
`j < i` guard makes that sufficiency unconditional. -/
def invalidAux {α} (cells : List (Cell α)) (changed : List Nat) : Nat → Nat → Bool
  | 0, i => changed.contains i
  | fuel + 1, i =>
    changed.contains i ||
      (dependsOnAt cells i).any (fun j => decide (j < i) && invalidAux cells changed fuel j)

/-- Whether position `i` is in the invalidation closure of `changed`. -/
def invalidB {α} (cells : List (Cell α)) (changed : List Nat) (i : Nat) : Bool :=
  invalidAux cells changed i i

/-- Modelled from the spec: `find_cells_to_rerun` of the missing
`dependency_analyzer` module — the reflexive-transitive closure of the
changed set under "is depended on by" (§4.3 Phase 3), as an ascending
list of positions. -/
def findCellsToRerun {α} (cells : List (Cell α)) (changed : List Nat) : List Nat :=
  (List.range cells.length).filter (invalidB cells changed)

/-- The transitive-dependents set of position `c` in a cell sequence:
the invalidation closure of the singleton `{c}` (spec glossary), as an
ascending list. -/
def transitiveDependents {α} (A : Analyzer) (cells : List (Cell α)) (c : Nat) :
    List Nat :=
  findCellsToRerun (buildDependencyGraph A cells) [c]

/-- The execution loop of `_process_cells_with_dependencies` (lines
136-139): run each rerun position that is in range and holds a code
cell, threading the environment; also report which positions were
executed. -/
def execLoop {α σ} (runCell : Cell α → σ → Cell α × σ) :
    List Nat → List (Cell α) → σ → List (Cell α) × σ × List Nat
  | [], cells, env => (cells, env, [])
  | i :: rest, cells, env =>
    match cells.get? i with
    | some c =>
      if c.is_code then
        let p := runCell c env
        let q := execLoop runCell rest (cells.set i p.1) p.2
        (q.1, q.2.1, i :: q.2.2)
      else execLoop runCell rest cells env
    | none => execLoop runCell rest cells env

/-- `Processor._process_cells_with_dependencies`: build the graph,
detect changes, and either copy everything over (no changes, same
length) or copy the unchanged cells and execute the rerun set in
ascending order.  `runCell` is the evaluator's `execute_cell` acting on
the opaque environment state `σ`; the executed positions are returned
alongside the new cell list. -/
def processCellsWithDeps {α σ} (A : Analyzer) (runCell : Cell α → σ → Cell α × σ)
    (prev new : List (Cell α)) (env : σ) : List (Cell α) × σ × List Nat :=
  let cells := buildDependencyGraph A new
  let changed := detectChangedCells prev cells
  if changed = [] ∧ cells.length = prev.length then
    let copied := cells.mapIdx (fun i c =>
      if decide (i < prev.length) && c.is_code then
        copyExecution c (prev.getD i (emptyCodeCell (α := α)))
      else c)
    (copied, env, [])
  else
    let rerun := findCellsToRerun cells changed
    let copied := cells.mapIdx (fun i c =>
      if c.is_code && !(rerun.contains i) && decide (i < prev.length) then
        copyExecution c (prev.getD i (emptyCodeCell (α := α)))
      else c)
    execLoop runCell rerun copied env

/-- `Processor._process_cells_legacy` (lines 80-101): walk the new
cells with the iterator of previous code cells; once a code cell's
content differs from the previous code cell at the same code position
(`off_script`), every later code cell is executed.  The index argument
numbers the cells for the executed-position report. -/
def legacyLoop {α σ} (runCell : Cell α → σ → Cell α × σ) :
    List (Cell α) → Bool → List (Cell α) → σ → Nat → List (Cell α) × σ × List Nat
  | _, _, [], env, _ => ([], env, [])
  | prevCodes, offScript, c :: rest, env, idx =>
    if c.is_code then
      let pc := prevCodes.headD (emptyCodeCell (α := α))
      let prevRest := prevCodes.tail
      if offScript || c.content ≠ pc.content then
        let p := runCell c env
        let q := legacyLoop runCell prevRest true rest p.2 (idx + 1)
        (p.1 :: q.1, q.2.1, idx :: q.2.2)
      else
        let q := legacyLoop runCell prevRest offScript rest env (idx + 1)
        (copyExecution c pc :: q.1, q.2.1, q.2.2)
    else
      let q := legacyLoop runCell prevCodes offScript rest env (idx + 1)
      (c :: q.1, q.2.1, q.2.2)

/-- `Processor.process_cells` with dependency tracking disabled. -/
def processCellsLegacy {α σ} (runCell : Cell α → σ → Cell α × σ)
    (prev new : List (Cell α)) (env : σ) : List (Cell α) × σ × List Nat :=
  legacyLoop runCell (prev.filter Cell.is_code) false new env 0

/-! ### Concrete fixtures -/

/-- Concatenation of raw input lines (what the line parser's implicit
initial cell accumulates on a boundary-free file). -/
def concatLines (lines : List String) : String := lines.foldl (· ++ ·) ""

/-- The CPython syntax tree of the two-line source
`x = """hi"""` / `"""bye"""`: an assignment whose value is a string
constant, then an expression statement wrapping a string constant. -/
def twoLineTree : PyNode :=
  PyNode.module
    [PyNode.assign 1 [PyNode.name 1 "x"] (PyNode.constStr 1 "hi"),
     PyNode.exprStmt 2 (PyNode.constStr 2 "bye")]

/-- The run-record of a cell (§3): counter, stdout, stderr, value,
error. -/
def runRec {α} (c : Cell α) : Nat × String × String × Option α × Option String :=
  (c.counter, c.stdout, c.stderr, c.result, c.error)

/-- An analyzer with empty `provides`/`requires` for every source (the
annotation a cell with no bindings and no reads receives). -/
def emptyAnalyzer : Analyzer := ⟨fun _ => [], fun _ => []⟩

/-- A one-statement code cell fixture. -/
def sampleCell : Cell Unit :=
  { type := CellType.CODE, content := "raise ValueError(\"boom\")", lineno := 1 }

/-- Interpreter behaviour: a single-statement cell whose `exec` raises
after writing to both streams. -/
def sampleRaiseOut : Behavior Unit :=
  { parsed := Except.ok (1, false)
    execAll := { stdoutW := "partial out\n", stderrW := "warn\n",
                 raised := some { kind := "ValueError", msg := "boom" } } }

/-- A kernel reply carrying an error and nothing else. -/
def sampleKernelErr : Except String (KernelReply Unit) :=
  Except.ok { errorK := some "ZeroDivisionError: division by zero" }

/-- A kernel reply carrying display data alongside an error (a cell
that calls `display(...)` and then raises). -/
def kernelReplyDisplayErr : Except String (KernelReply Unit) :=
  Except.ok { errorK := some "ZeroDivisionError: division by zero",
              display_data := [()], execution_count := 1 }

/-- A kernel reply carrying only a positive execution count (the
kernel numbering its own executions). -/
def kernelReplyCount5 : Except String (KernelReply Unit) :=
  Except.ok { execution_count := 5 }

/-- A `_convert_output` stand-in that converts every bundle. -/
def convUnit : Unit → Option Unit := fun _ => some ()

/-- The code-cell position of index `i`: how many code cells precede
it. -/
def codeCellsBefore {α} (cells : List (Cell α)) (i : Nat) : Nat :=
  ((cells.take i).filter Cell.is_code).length

/-- Whether the `k`-th code cell of the new pass differs in content
from the `k`-th previous code cell (a missing previous code cell is the
`empty_code_cell` default of the exhausted iterator). -/
def legacyTriggerAt {α} (prevCodes newCodes : List (Cell α)) (k : Nat) : Bool :=
  match newCodes.get? k with
  | some c => c.content ≠ (prevCodes.getD k (emptyCodeCell (α := α))).content
  | none => false

/-- An instrumented evaluator stand-in over a counter state. -/
def runCellMark : Cell Unit → Nat → Cell Unit × Nat :=
  fun c n => ({ c with counter := n }, n + 1)

/-- Previous pass for the legacy-processing fixture. -/
def legPrev : List (Cell Unit) :=
  [{ type := CellType.CODE, content := "x = 1", lineno := 1, counter := 1 },
   { type := CellType.CODE, content := "y = 2", lineno := 2, counter := 2 }]

/-- New pass for the legacy-processing fixture: only the second code
cell's content is edited. -/
def legNew : List (Cell Unit) :=
  [{ type := CellType.CODE, content := "x = 1", lineno := 1 },
   { type := CellType.CODE, content := "y = 3", lineno := 2 }]

/-- Previous pass holding an errored run record. -/
def prevErrFix : List (Cell Unit) :=
  [{ type := CellType.CODE, content := "1/0", lineno := 1,
     error := some "ZeroDivisionError: division by zero", counter := 1 }]

/-- Unchanged re-parse of the errored source. -/
def newErrFix : List (Cell Unit) :=
  [{ type := CellType.CODE, content := "1/0", lineno := 1 }]

/-- Previous pass with a clean run record. -/
def prevOkFix : List (Cell Unit) :=
  [{ type := CellType.CODE, content := "x = 1", lineno := 1, counter := 3,
     stdout := "done\n" }]

/-- Unchanged re-parse of the clean source. -/
def newOkFix : List (Cell Unit) :=
  [{ type := CellType.CODE, content := "x = 1", lineno := 1 }]

/-- Previous pass for the single-edit fixture: an errored cell followed
by an unrelated clean cell. -/
def prevEditFix : List (Cell Unit) :=
  [{ type := CellType.CODE, content := "1/0", lineno := 1,
     error := some "ZeroDivisionError: division by zero" },
   { type := CellType.CODE, content := "x = 1", lineno := 2 }]

/-- New pass for the single-edit fixture: only the second cell's
content is edited. -/
def newEditFix : List (Cell Unit) :=
  [{ type := CellType.CODE, content := "1/0", lineno := 1 },
   { type := CellType.CODE, content := "x = 2", lineno := 2 }]

/-- The copy step of the rerun branch of
`_process_cells_with_dependencies` (lines 128-134): code cells outside
the rerun set with a positional previous counterpart carry its run
record over. -/
def copyStep {α} (prev cells : List (Cell α)) (rerun : List Nat) : List (Cell α) :=
  cells.mapIdx (fun i c =>
    if c.is_code && !(rerun.contains i) && decide (i < prev.length) then
      copyExecution c (prev.getD i (emptyCodeCell (α := α)))
    else c)

/-- The analyzer table of scenario E1: three assignments, the middle
one reading the name the first provides. -/
def e1Analyzer : Analyzer :=
  { provides := fun s =>
      if s = "x = 1" then ["x"]
      else if s = "y = x + 1" then ["y"]
      else if s = "y = x + 2" then ["y"]
      else if s = "z = 10" then ["z"]
      else []
    requires := fun s =>
      if s = "y = x + 1" then ["x"]
      else if s = "y = x + 2" then ["x"]
      else [] }

/-- First pass of scenario E1, annotated and cleanly run. -/
def e1Prev : List (Cell Unit) :=
  [{ type := CellType.CODE, content := "x = 1", lineno := 2, counter := 1,
     provides := ["x"] },
   { type := CellType.CODE, content := "y = x + 1", lineno := 4, counter := 2,
     provides := ["y"], requires := ["x"] },
   { type := CellType.CODE, content := "z = 10", lineno := 6, counter := 3,
     provides := ["z"] }]

/-- Second pass of scenario E1: only cell B's content is edited. -/
def e1New : List (Cell Unit) :=
  [{ type := CellType.CODE, content := "x = 1", lineno := 2 },
   { type := CellType.CODE, content := "y = x + 2", lineno := 4 },
   { type := CellType.CODE, content := "z = 10", lineno := 6 }]

/-! ## Theorems

Helper lemmas first, then one theorem per verified claim (with its
witness or counterexample). -/

/-- A list is a leading segment of itself followed by anything. -/
theorem leadsList_append (a b : List Char) : leadsList a (a ++ b) = true := by
  induction a with
  | nil => rfl
  | cons c cs ih => simp [leadsList, ih]

/-- A string starts with itself followed by anything. -/
theorem pyStarts_append (s t : String) : pyStarts (s ++ t) s = true := by
  simp only [pyStarts, String.data_append]
  exact leadsList_append s.data t.data

/-- `joinNL` of a list with at least two entries starts with the head. -/
theorem pyStarts_joinNL (s r : String) (rest : List String) :
    pyStarts (joinNL (s :: r :: rest)) s = true := by
  show pyStarts (s ++ "\n" ++ joinNL (r :: rest)) s = true
  rw [String.append_assoc]
  exact pyStarts_append s _

/-! ### C5: assignment-vs-prose disambiguation -/

/-- C5 counterexample: the claim says a string literal on the
right-hand side of an assignment is never treated as a cell boundary,
but the default line-based parser, on the single assignment statement
`x = (` / `"""hi"""` / `)`, treats the literal's line as a boundary and
emits three cells (code, prose, code) instead of one code cell. -/
theorem C5_counterexample :
    ((parse (α := Unit) pcb0 ["x = (\n", "\"\"\"hi\"\"\"\n", ")\n"]).map
        (fun c => (c.type, c.content)) =
      [(CellType.CODE, "x = ("), (CellType.MARKDOWN, "hi"), (CellType.CODE, ")")]) ∧
    (parse (α := Unit) pcb0 ["x = (\n", "\"\"\"hi\"\"\"\n", ")\n"]).length ≠ 1 := by
  constructor
  · decide
  · decide

/-- C5 (amended): on the two-line input `x = """hi"""` / `"""bye"""`
both parsers emit exactly a code cell holding the assignment and a
prose cell `bye`; and in the AST-based parser a string boundary only
ever arises from an expression-statement string literal, so the value
of an assignment never becomes a boundary.  (The line-based parser
guarantees this only when the literal opens on the assignment's own
line — see the counterexample.) -/
theorem C5_two_cells_and_string_boundaries :
    ((parse (α := Unit) pcb0 ["x = \"\"\"hi\"\"\"\n", "\"\"\"bye\"\"\""]).map
        (fun c => (c.type, c.content)) =
      [(CellType.CODE, "x = \"\"\"hi\"\"\""), (CellType.MARKDOWN, "bye")]) ∧
    ((astParse (α := Unit) pcb0 "x = \"\"\"hi\"\"\"\n\"\"\"bye\"\"\"" (some twoLineTree)).map
        (fun c => (c.type, c.content)) =
      [(CellType.CODE, "x = \"\"\"hi\"\"\""), (CellType.MARKDOWN, "bye")]) ∧
    (∀ (t : PyNode) (b : CellBoundary), b ∈ stringBoundaries (some t) →
      ∃ ln ln2 s, PyNode.exprStmt ln (PyNode.constStr ln2 s) ∈ walk t ∧
        b = { line_no := ln, boundary_type := BoundaryType.stringB,
              cell_type := CellType.MARKDOWN }) := by
  refine ⟨by decide, by decide, ?_⟩
  intro t b hb
  simp only [stringBoundaries, List.mem_filterMap] at hb
  obtain ⟨n, hn, hf⟩ := hb
  match n, hf with
  | PyNode.exprStmt ln (PyNode.constStr ln2 s), hf =>
    exact ⟨ln, ln2, s, hn, (Option.some_inj.mp hf).symm⟩

/-- C5 witness: the universal clause of the theorem applied to the
two-line tree and its string boundary. -/
theorem C5_witness :
    ∃ ln ln2 s, PyNode.exprStmt ln (PyNode.constStr ln2 s) ∈ walk twoLineTree ∧
      ({ line_no := 2, boundary_type := BoundaryType.stringB,
         cell_type := CellType.MARKDOWN } : CellBoundary) =
      { line_no := ln, boundary_type := BoundaryType.stringB,
        cell_type := CellType.MARKDOWN } :=
  C5_two_cells_and_string_boundaries.2.2 twoLineTree
    { line_no := 2, boundary_type := BoundaryType.stringB, cell_type := CellType.MARKDOWN }
    (by decide)

/-! ### C7: display recursion -/

/-- C7 counterexample: the claim says the prepared-display rule recurses
with depth bounded by 10 and, past the bound, emits the text artifact
`display recursion exceeded`; but on a chain of 15 display indirections
the code renders the innermost object's `repr` and never produces that
text. -/
theorem C7_counterexample :
    displayAsHtml htmlEscape id (displayChain 15) =
      "<pre class=\"result-output\">bottom</pre>" ∧
    displayAsHtml htmlEscape id (displayChain 15) ≠
      "<pre class=\"result-output\">display recursion exceeded</pre>" := by
  constructor
  · decide
  · decide

/-- C7 (amended): `_render_display_result` recurses on a non-string
prepared-display result with no depth bound at all: for every chain
length `n` — in particular past the claimed bound of 10 — the
conversion renders the innermost object's representation, and the
overflow artifact `display recursion exceeded` is never emitted. -/
theorem C7_display_recursion_unbounded (esc fmtMd : String → String) (n : Nat) :
    displayAsHtml esc fmtMd (displayChain n) = preWrap esc "bottom" := by
  induction n with
  | zero => rfl
  | succ n ih => simpa [displayChain, displayAsHtml] using ih

/-! ### C8: cell line numbers -/

/-- C8 counterexample: the claim says a non-empty file with no cell
boundaries yields a single code cell whose line number is 1, but the
default line-based parser's implicit initial cell carries line number
0. -/
theorem C8_counterexample :
    ((parse (α := Unit) pcb0 ["x = 1"]).map (fun c => c.lineno) = [0]) ∧
    ((parse (α := Unit) pcb0 ["x = 1"]).map (fun c => c.lineno) ≠ [1]) := by
  constructor
  · decide
  · decide

/-- The `parse` fold on boundary-free lines stays in the `CODE` state
and only accumulates content. -/
theorem parse_fold_no_boundary {pcb : String → BoundaryInfo}
    (lines : List String) (h : ∀ line ∈ lines, cellBoundaryLine line = false) :
    ∀ (n : Nat) (cell : Cell Unit) (out : List (Cell Unit)),
      (lines.enumFrom n).foldl (fun s (p : Nat × String) => parseStep pcb p.1 p.2 s)
        { st := LineState.code, cell := cell, out := out } =
      { st := LineState.code,
        cell := { cell with content := lines.foldl (· ++ ·) cell.content },
        out := out } := by
  induction lines with
  | nil => intro n cell out; rfl
  | cons line rest ih =>
    intro n cell out
    have hline : cellBoundaryLine line = false := h line (List.mem_cons_self _ _)
    have hrest : ∀ l ∈ rest, cellBoundaryLine l = false :=
      fun l hl => h l (List.mem_cons_of_mem _ hl)
    simp only [List.enumFrom_cons, List.foldl_cons]
    rw [show parseStep pcb n line { st := LineState.code, cell := cell, out := out } =
        { st := LineState.code, cell := { cell with content := cell.content ++ line },
          out := out } by simp [parseStep, hline]]
    exact ih hrest (n + 1) { cell with content := cell.content ++ line } out

/-- C8 (amended): each emitted cell's line number is the line where the
cell begins, but the two parsers disagree on the implicit initial cell:
on a non-empty file with no cell boundaries the AST-based parser emits
a single code cell with line number 1 as the claim states, while the
default line-based parser's implicit initial cell carries line number
0. -/
theorem C8_initial_cell_line_numbers :
    (∀ (pcb : String → BoundaryInfo) (source : String) (tree : Option PyNode),
      (∀ line ∈ pySplit source "\n", pyStarts (pyStrip line) "# %%" = false) →
      stringBoundaries tree = [] →
      pyStrip source ≠ "" →
      astParse (α := Unit) pcb source tree =
        [{ type := CellType.CODE, content := pyStrip source, lineno := 1 }]) ∧
    (∀ (pcb : String → BoundaryInfo) (lines : List String),
      (∀ line ∈ lines, cellBoundaryLine line = false) →
      pyStrip (concatLines lines) ≠ "" →
      parse (α := Unit) pcb lines =
        [{ type := CellType.CODE, content := pyStrip (concatLines lines), lineno := 0 }]) := by
  constructor
  · intro pcb source tree hmk hstr hne
    have h1 : markerBoundaries pcb (pySplit source "\n") = [] := by
      simp only [markerBoundaries, List.filterMap_eq_nil_iff]
      intro p hp
      have hmem : p.2 ∈ pySplit source "\n" :=
        List.getElem?_mem (List.mem_enum_iff_getElem?.mp hp)
      simp [hmk p.2 hmem]
    have h2 : findCellBoundaries pcb (pySplit source "\n") tree = [] := by
      simp [findCellBoundaries, h1, hstr, List.insertionSort]
    simp only [astParse, h2, hne]
    simp [hne]
  · intro pcb lines h hne
    have hfold := @parse_fold_no_boundary pcb lines h 0
      { type := CellType.CODE, content := "", lineno := 0 } []
    simp only [concatLines] at hne
    simp only [parse, List.enum]
    rw [hfold]
    simp [hne, concatLines]

/-- C8 witness: the amended theorem applied to the one-line file
`x = 1` (for the AST branch, with its syntax tree; for the line-based
branch, with the raw line). -/
theorem C8_witness :
    astParse (α := Unit) pcb0 "x = 1"
        (some (PyNode.module [PyNode.assign 1 [PyNode.name 1 "x"] (PyNode.constOther 1)])) =
      [{ type := CellType.CODE, content := "x = 1", lineno := 1 }] ∧
    parse (α := Unit) pcb0 ["x = 1"] =
      [{ type := CellType.CODE, content := "x = 1", lineno := 0 }] := by
  constructor
  · have := C8_initial_cell_line_numbers.1 pcb0 "x = 1"
      (some (PyNode.module [PyNode.assign 1 [PyNode.name 1 "x"] (PyNode.constOther 1)]))
      (by decide) (by decide) (by decide)
    simpa using this
  · have := C8_initial_cell_line_numbers.2 pcb0 ["x = 1"] (by decide) (by decide)
    simpa using this

/-! ### C6: execution counters -/

/-- `execute_cell` advances the environment counter by exactly one and
stamps the pre-increment counter on the cell, on every path. -/
theorem executeCell_counter {V} (b : Behavior V) (cell : Cell V) (cnt : Nat) :
    (executeCell b cell cnt).2 = cnt + 1 ∧ (executeCell b cell cnt).1.counter = cnt := by
  obtain ⟨parsed, cpre, epre, clast, elast, call, eall, figs, mpl⟩ := b
  rcases parsed with e | ⟨n, lastE⟩
  · exact ⟨rfl, rfl⟩
  · rcases n with _ | _ | n <;> rcases lastE <;>
      rcases cpre with cmsg | ⟨⟩ <;> rcases call with amsg | ⟨⟩ <;>
      obtain ⟨eo, ee, eraised⟩ := epre <;> obtain ⟨ao, ae, araised⟩ := eall <;>
      rcases eraised with _ | exc1 <;> rcases araised with _ | exc2 <;>
      rcases clast with lmsg | ⟨⟩ <;> obtain ⟨lo, le, lres⟩ := elast <;>
      rcases lres with exc3 | v <;> rcases figs with _ | ⟨f, fs⟩ <;>
      first
      | exact ⟨rfl, rfl⟩
      | (constructor <;>
          simp [executeCell, exprTail, assignResult] <;>
          rcases v with _ | val <;> simp [assignResult] <;>
          rcases hm : mpl val <;> simp [hm])

/-- `range' s n` is strictly increasing. -/
theorem chain_lt_range' (s n : Nat) : List.Chain' (· < ·) (List.range' s n) := by
  induction n generalizing s with
  | zero => simp
  | succ n ih =>
    rw [List.range'_succ]
    cases n with
    | zero => simp
    | succ m =>
      rw [List.range'_succ]
      refine List.chain'_cons.mpr ⟨by omega, ?_⟩
      rw [← List.range'_succ]
      exact ih (s + 1)

/-- The counters a sequence of `execute_cell` calls assigns are
`cnt, cnt+1, …`. -/
theorem runSeq_counters {V} (runs : List (Behavior V × Cell V)) (cnt : Nat) :
    (runSeq runs cnt).1.map Cell.counter = List.range' cnt runs.length ∧
    (runSeq runs cnt).2 = cnt + runs.length := by
  induction runs generalizing cnt with
  | nil => simp [runSeq]
  | cons bc rest ih =>
    obtain ⟨b, c⟩ := bc
    have hc := executeCell_counter b c cnt
    simp only [runSeq, List.map_cons, List.length_cons, List.range'_succ]
    rw [hc.1, hc.2]
    refine ⟨by rw [(ih (cnt + 1)).1], ?_⟩
    rw [(ih (cnt + 1)).2]
    omega

/-- C6 (amended): each call of the plain `Environment` advances the
execution counter by exactly one (`environment.py` lines 279-280), and
the counters assigned to the executed cells across any sequence of
calls within one process form a strictly increasing total order; the
`IPythonEnvironment` advances by exactly one only when the kernel
reply carries no positive execution count — on a positive count the
cell's counter and the environment counter are overwritten from the
reply (`ipython_environment.py` lines 111-114), so a call need not
advance the counter by one there (see the counterexample). -/
theorem C6_counter_monotone {V O} (b : Behavior V) (cell : Cell V) (cnt : Nat)
    (runs : List (Behavior V × Cell V))
    (conv : O → Option V) (kres : Except String (KernelReply O)) (kcell : Cell V) :
    ((executeCell b cell cnt).2 = cnt + 1 ∧ (executeCell b cell cnt).1.counter = cnt) ∧
    ((runSeq runs cnt).1.map Cell.counter = List.range' cnt runs.length) ∧
    List.Chain' (· < ·) ((runSeq runs cnt).1.map Cell.counter) ∧
    ((∀ r, kres = Except.ok r → r.execution_count = 0) →
      (iexecuteCell conv kres kcell cnt).2 = cnt + 1 ∧
      (iexecuteCell conv kres kcell cnt).1.counter = cnt) ∧
    (∀ r, kres = Except.ok r → 0 < r.execution_count →
      (iexecuteCell conv kres kcell cnt).2 = r.execution_count + 1 ∧
      (iexecuteCell conv kres kcell cnt).1.counter = r.execution_count) := by
  refine ⟨executeCell_counter b cell cnt, (runSeq_counters runs cnt).1, ?_, ?_, ?_⟩
  · rw [(runSeq_counters runs cnt).1]
    exact chain_lt_range' cnt runs.length
  · intro hz
    cases kres with
    | error msg => exact ⟨rfl, rfl⟩
    | ok r =>
      obtain ⟨out, so, se, err, ec, dd⟩ := r
      have h0 : ec = 0 := hz _ rfl
      subst h0
      cases out with
      | none => cases dd <;> exact ⟨rfl, rfl⟩
      | some o =>
        cases hco : conv o with
        | none => cases dd <;> constructor <;> simp [iexecuteCell, hco]
        | some v => cases dd <;> constructor <;> simp [iexecuteCell, hco]
  · intro r hk hpos
    subst hk
    obtain ⟨out, so, se, err, ec, dd⟩ := r
    have hp : 0 < ec := hpos
    cases out with
    | none => cases dd <;> constructor <;> simp [iexecuteCell, hp]
    | some o =>
      cases hco : conv o with
      | none => cases dd <;> constructor <;> simp [iexecuteCell, hp, hco]
      | some v => cases dd <;> constructor <;> simp [iexecuteCell, hp, hco]

/-- C6 witness: the plain environment advances `7 → 8`; the IPython
environment advances by one on a countless kernel reply, and on a
reply counting `5` it stamps counter `5` and moves the environment
counter to `6`. -/
theorem C6_witness :
    (executeCell sampleRaiseOut sampleCell 7).2 = 7 + 1 ∧
    (iexecuteCell convUnit sampleKernelErr sampleCell 7).2 = 7 + 1 ∧
    (iexecuteCell convUnit kernelReplyCount5 sampleCell 7).2 = 5 + 1 ∧
    (iexecuteCell convUnit kernelReplyCount5 sampleCell 7).1.counter = 5 := by
  have h1 := C6_counter_monotone sampleRaiseOut sampleCell 7
    ([] : List (Behavior Unit × Cell Unit)) convUnit sampleKernelErr sampleCell
  have h2 := C6_counter_monotone sampleRaiseOut sampleCell 7
    ([] : List (Behavior Unit × Cell Unit)) convUnit kernelReplyCount5 sampleCell
  refine ⟨h1.1.1, ?_, ?_, ?_⟩
  · exact (h1.2.2.2.1 (by intro r h; cases h; rfl)).1
  · exact (h2.2.2.2.2 { execution_count := 5 } rfl (by decide)).1
  · exact (h2.2.2.2.2 { execution_count := 5 } rfl (by decide)).2

/-- C6 counterexample: on a kernel reply counting `5`, an
`IPythonEnvironment.execute_cell` call starting from counter `0`
moves the counter to `6` (not `0 + 1`), and a second identical call
assigns the same cell counter `5` again — so advance-by-one and strict
monotonicity both fail for the IPython evaluator the claim cites. -/
theorem C6_counterexample :
    (iexecuteCell convUnit kernelReplyCount5 sampleCell 0).2 ≠ 0 + 1 ∧
    (iexecuteCell convUnit kernelReplyCount5 sampleCell 0).1.counter =
      (iexecuteCell convUnit kernelReplyCount5 sampleCell
        (iexecuteCell convUnit kernelReplyCount5 sampleCell 0).2).1.counter := by
  exact ⟨by decide, by decide⟩

/-! ### C3, C4, C10: error handling in the environments -/

set_option maxHeartbeats 2000000 in
/-- `execute_cell` leaves `error = None` exactly when the run
completed, and on every error path the cleared `result` is untouched. -/
theorem executeCell_error_characterization {V} (b : Behavior V) (cell : Cell V)
    (cnt : Nat) :
    ((executeCell b cell cnt).1.error = none ↔ runCompleted b = true) ∧
    ((executeCell b cell cnt).1.error ≠ none → (executeCell b cell cnt).1.result = none) := by
  obtain ⟨parsed, cpre, epre, clast, elast, call, eall, figs, mpl⟩ := b
  rcases parsed with e | ⟨n, lastE⟩
  · simp [executeCell, runCompleted]
  · rcases n with _ | _ | n <;> rcases lastE <;>
      rcases cpre with cmsg | ⟨⟩ <;> rcases call with amsg | ⟨⟩ <;>
      obtain ⟨eo, ee, eraised⟩ := epre <;> obtain ⟨ao, ae, araised⟩ := eall <;>
      rcases eraised with _ | exc1 <;> rcases araised with _ | exc2 <;>
      rcases clast with lmsg | ⟨⟩ <;> obtain ⟨lo, le, lres⟩ := elast <;>
      rcases lres with exc3 | v <;> rcases figs with _ | ⟨f, fs⟩ <;>
      first
      | (simp [executeCell, exprTail, assignResult, runCompleted, okB]; done)
      | (rcases v with _ | val
         · simp [executeCell, exprTail, assignResult, runCompleted, okB]
         · rcases hm : mpl val <;>
             simp [executeCell, exprTail, assignResult, runCompleted, okB, hm])

/-- A syntax error from `ast.parse` is recorded as the formatted
syntax error. -/
theorem executeCell_parse_error {V} (b : Behavior V) (cell : Cell V) (cnt : Nat)
    (e : SynErr) (h : b.parsed = Except.error e) :
    (executeCell b cell cnt).1.error = some (formatSyntaxError e cell.content) := by
  simp [executeCell, h]

/-- A raised `exec`/`eval` exception is recorded as the formatted
runtime error, with the stream text accumulated before the raise. -/
theorem executeCell_raise {V} (b : Behavior V) (cell : Cell V) (cnt : Nat)
    (exc : PyExc) (o er : String) (h : raiseOutcome b = some (exc, o, er)) :
    (executeCell b cell cnt).1.stdout = o ∧ (executeCell b cell cnt).1.stderr = er ∧
    (executeCell b cell cnt).1.error = some (formatRuntimeError exc cell.content) := by
  obtain ⟨parsed, cpre, epre, clast, elast, call, eall, figs, mpl⟩ := b
  rcases parsed with e | ⟨n, lastE⟩
  · simp [raiseOutcome] at h
  · rcases n with _ | _ | n <;> rcases lastE <;>
      rcases cpre with cmsg | ⟨⟩ <;> rcases call with amsg | ⟨⟩ <;>
      obtain ⟨eo, ee, eraised⟩ := epre <;> obtain ⟨ao, ae, araised⟩ := eall <;>
      rcases eraised with _ | exc1 <;> rcases araised with _ | exc2 <;>
      rcases clast with lmsg | ⟨⟩ <;> obtain ⟨lo, le, lres⟩ := elast <;>
      rcases lres with exc3 | v <;>
      simp only [raiseOutcome] at h <;> simp at h <;>
      (try obtain ⟨rfl, rfl, rfl⟩ := h) <;>
      simp [executeCell, exprTail, assignResult]

/-- `leadsList` is reflexive. -/
theorem leadsList_refl (a : List Char) : leadsList a a = true := by
  induction a with
  | nil => rfl
  | cons c cs ih => simp [leadsList, ih]

/-- The formatted syntax error starts with `SyntaxError: ` and the
message. -/
theorem formatSyntaxError_starts (e : SynErr) (src : String) :
    pyStarts (formatSyntaxError e src) ("SyntaxError: " ++ e.msg) = true := by
  unfold formatSyntaxError
  exact pyStarts_joinNL _ _ _

/-- The formatted runtime error starts with the exception kind and
message. -/
theorem formatRuntimeError_starts (e : PyExc) (src : String) :
    pyStarts (formatRuntimeError e src) (e.kind ++ ": " ++ e.msg) = true := by
  simp only [formatRuntimeError]
  split
  · exact pyStarts_joinNL _ _ _
  · exact leadsList_refl _

/-- C4 (confirmed): for every interpreter behaviour — including sources
that fail to parse or compile and executions that raise — the run
operation returns (it is a total function) with the failure recorded in
the cell's `error` field: a `SyntaxError` as the formatted context
excerpt, a raised exception as the formatted runtime error, both
carrying kind and message; whenever the run did not complete, some
error string is recorded, so no exception propagates out of
`execute_cell`. -/
theorem C4_errors_recorded {V} (b : Behavior V) (cell : Cell V) (cnt : Nat) :
    (∀ e, b.parsed = Except.error e →
      (executeCell b cell cnt).1.error = some (formatSyntaxError e cell.content) ∧
      pyStarts (formatSyntaxError e cell.content) ("SyntaxError: " ++ e.msg) = true) ∧
    (∀ exc o er, raiseOutcome b = some (exc, o, er) →
      (executeCell b cell cnt).1.error = some (formatRuntimeError exc cell.content) ∧
      pyStarts (formatRuntimeError exc cell.content) (exc.kind ++ ": " ++ exc.msg) = true) ∧
    (runCompleted b = false → ∃ s, (executeCell b cell cnt).1.error = some s) := by
  refine ⟨fun e he => ⟨executeCell_parse_error b cell cnt e he,
      formatSyntaxError_starts e cell.content⟩,
    fun exc o er h => ⟨(executeCell_raise b cell cnt exc o er h).2.2,
      formatRuntimeError_starts exc cell.content⟩, fun hnc => ?_⟩
  rcases he : (executeCell b cell cnt).1.error with _ | s
  · have := (executeCell_error_characterization b cell cnt).1.mp he
    rw [this] at hnc
    cases hnc
  · exact ⟨s, rfl⟩

/-- C4 witness: the theorem applied to a raising single-statement cell. -/
theorem C4_witness :
    (executeCell sampleRaiseOut sampleCell 0).1.error =
      some (formatRuntimeError { kind := "ValueError", msg := "boom" } sampleCell.content) ∧
    pyStarts (formatRuntimeError { kind := "ValueError", msg := "boom" } sampleCell.content)
      ("ValueError" ++ ": " ++ "boom") = true :=
  (C4_errors_recorded sampleRaiseOut sampleCell 0).2.1
    { kind := "ValueError", msg := "boom" } "partial out\n" "warn\n" (by decide)

/-- C3 (amended): for the plain `Environment`, after any single
execution the cell's `error` is non-null exactly when the run did not
complete, and a non-null `error` forces `result = None`; for the
`IPythonEnvironment`, `result = None` under a non-null `error` is
guaranteed provided the kernel reply carries no execute-result output
and no display data. -/
theorem C3_error_value_invariant {V O} (b : Behavior V) (cell : Cell V) (cnt : Nat)
    (conv : O → Option V) (kres : Except String (KernelReply O)) (kcell : Cell V)
    (kcnt : Nat) :
    ((executeCell b cell cnt).1.error = none ↔ runCompleted b = true) ∧
    ((executeCell b cell cnt).1.error ≠ none → (executeCell b cell cnt).1.result = none) ∧
    ((∀ r, kres = Except.ok r → r.output = none ∧ r.display_data = []) →
      (iexecuteCell conv kres kcell kcnt).1.result = none) := by
  refine ⟨(executeCell_error_characterization b cell cnt).1,
    (executeCell_error_characterization b cell cnt).2, fun hk => ?_⟩
  rcases kres with msg | r
  · rfl
  · obtain ⟨h1, h2⟩ := hk r rfl
    obtain ⟨out, so, se, ek, ec, dd⟩ := r
    simp at h1 h2
    subst h1; subst h2
    simp [iexecuteCell]
    split <;> rfl

/-- C3 witness: the theorem applied to the raising cell and to a
kernel reply that reports only an error. -/
theorem C3_witness :
    ((executeCell sampleRaiseOut sampleCell 0).1.error ≠ none →
      (executeCell sampleRaiseOut sampleCell 0).1.result = none) ∧
    (iexecuteCell convUnit sampleKernelErr sampleCell 0).1.result = none :=
  ⟨(C3_error_value_invariant sampleRaiseOut sampleCell 0 convUnit sampleKernelErr
      sampleCell 0).2.1,
   (C3_error_value_invariant sampleRaiseOut sampleCell 0 convUnit sampleKernelErr
      sampleCell 0).2.2 (by intro r hr; cases hr; exact ⟨rfl, rfl⟩)⟩

/-- C3 counterexample: in the `IPythonEnvironment`, a kernel reply that
carries display data alongside an error (a cell that displays and then
raises) leaves both `error` and `result` non-null, violating the
claimed invariant. -/
theorem C3_counterexample :
    (iexecuteCell convUnit kernelReplyDisplayErr sampleCell 0).1.error ≠ none ∧
    (iexecuteCell convUnit kernelReplyDisplayErr sampleCell 0).1.result ≠ none := by
  constructor
  · decide
  · decide

/-- C10 (confirmed): when a code cell's execution raises, the stdout
and stderr text written before the exception is recorded on the cell
alongside the formatted runtime error. -/
theorem C10_output_preserved_on_raise {V} (b : Behavior V) (cell : Cell V) (cnt : Nat)
    (exc : PyExc) (o er : String) (h : raiseOutcome b = some (exc, o, er)) :
    (executeCell b cell cnt).1.stdout = o ∧
    (executeCell b cell cnt).1.stderr = er ∧
    (executeCell b cell cnt).1.error = some (formatRuntimeError exc cell.content) :=
  executeCell_raise b cell cnt exc o er h

/-- C10 witness: the raising fixture wrote `partial out` before
failing, and the text is preserved. -/
theorem C10_witness :
    (executeCell sampleRaiseOut sampleCell 0).1.stdout = "partial out\n" ∧
    (executeCell sampleRaiseOut sampleCell 0).1.stderr = "warn\n" ∧
    (executeCell sampleRaiseOut sampleCell 0).1.error =
      some (formatRuntimeError { kind := "ValueError", msg := "boom" } sampleCell.content) :=
  C10_output_preserved_on_raise sampleRaiseOut sampleCell 0
    { kind := "ValueError", msg := "boom" } "partial out\n" "warn\n" (by decide)

/-! ### C9: legacy (no-dependency) processing -/

/-- `getD` one position later equals `getD` on the tail. -/
theorem getD_tail {α} (pcs : List (Cell α)) (k : Nat) (d : Cell α) :
    pcs.getD (k + 1) d = pcs.tail.getD k d := by
  cases pcs <;> rfl

/-- `headD` is `getD 0`. -/
theorem headD_eq_getD {α} (pcs : List (Cell α)) (d : Cell α) :
    pcs.headD d = pcs.getD 0 d := by
  cases pcs <;> rfl

/-- Code position counting over a cons. -/
theorem codeCellsBefore_cons_succ {α} (c : Cell α) (l : List (Cell α)) (j : Nat) :
    codeCellsBefore (c :: l) (j + 1) =
      (if c.is_code then 1 else 0) + codeCellsBefore l j := by
  simp only [codeCellsBefore, List.take_succ_cons, List.filter_cons]
  split <;> simp <;> omega

/-- Shifting the trigger test past the heads of both iterators. -/
theorem legacyTriggerAt_shift {α} (pcs : List (Cell α)) (c : Cell α)
    (codes : List (Cell α)) (k : Nat) :
    legacyTriggerAt pcs (c :: codes) (k + 1) = legacyTriggerAt pcs.tail codes k := by
  cases pcs <;> simp [legacyTriggerAt]

/-- The trigger test at position 0 compares the head contents. -/
theorem legacyTriggerAt_zero {α} (pcs : List (Cell α)) (c : Cell α)
    (codes : List (Cell α)) :
    legacyTriggerAt pcs (c :: codes) 0 =
      decide (c.content ≠ (pcs.headD (emptyCodeCell (α := α))).content) := by
  cases pcs <;> simp [legacyTriggerAt, headD_eq_getD]

/-- Characterization of `_process_cells_legacy`'s inner loop: a code
cell is executed exactly when the off-script flag was already set or
some code cell at or before its code position differs from the previous
pass's code cell at the same code position; unexecuted code cells copy
the run record of the previous code cell at their code position. -/
theorem legacyLoop_spec {α σ} (runCell : Cell α → σ → Cell α × σ) :
    ∀ (rest pcs : List (Cell α)) (off : Bool) (env : σ) (idx : Nat),
      (∀ i, i ∈ (legacyLoop runCell pcs off rest env idx).2.2 ↔
        ∃ j ci, rest.get? j = some ci ∧ i = idx + j ∧ ci.is_code = true ∧
          (off = true ∨ ∃ k, k ≤ codeCellsBefore rest j ∧
            legacyTriggerAt pcs (rest.filter Cell.is_code) k = true)) ∧
      (∀ j ci, rest.get? j = some ci → ci.is_code = true →
        (idx + j) ∉ (legacyLoop runCell pcs off rest env idx).2.2 →
        (legacyLoop runCell pcs off rest env idx).1.get? j =
          some (copyExecution ci (pcs.getD (codeCellsBefore rest j)
            (emptyCodeCell (α := α))))) := by
  intro rest
  induction rest with
  | nil =>
    intro pcs off env idx
    refine ⟨fun i => ?_, fun j ci hj _ _ => ?_⟩
    · simp [legacyLoop]
    · simp at hj
  | cons c rest ih =>
    intro pcs off env idx
    by_cases hc : c.is_code = true
    · by_cases heq : c.content = (pcs.headD (emptyCodeCell (α := α))).content
      · cases off with
        | false =>
          -- copy branch: contents match and we are on script
          obtain ⟨ih1, ih2⟩ := ih pcs.tail false env (idx + 1)
          have hloop : legacyLoop runCell pcs false (c :: rest) env idx =
              (copyExecution c (pcs.headD (emptyCodeCell (α := α))) ::
                (legacyLoop runCell pcs.tail false rest env (idx + 1)).1,
               (legacyLoop runCell pcs.tail false rest env (idx + 1)).2.1,
               (legacyLoop runCell pcs.tail false rest env (idx + 1)).2.2) := by
            simp [legacyLoop, hc, heq]
          constructor
          · intro i
            rw [hloop]
            simp only []
            rw [ih1 i]
            constructor
            · rintro ⟨j, ci, hget, hi, hcode, hcond⟩
              refine ⟨j + 1, ci, by simpa using hget, by omega, hcode, ?_⟩
              rcases hcond with h | ⟨k, hk, htr⟩
              · cases h
              · refine Or.inr ⟨k + 1, ?_, ?_⟩
                · rw [codeCellsBefore_cons_succ, hc]
                  simp
                  omega
                · rw [List.filter_cons_of_pos (by simpa using hc),
                    legacyTriggerAt_shift]
                  exact htr
            · rintro ⟨j, ci, hget, hi, hcode, hcond⟩
              cases j with
              | zero =>
                simp at hget
                rcases hcond with h | ⟨k, hk, htr⟩
                · cases h
                · have hk0 : k = 0 := by
                    simp [codeCellsBefore] at hk
                    omega
                  subst hk0
                  rw [List.filter_cons_of_pos (by simpa using hc),
                    legacyTriggerAt_zero] at htr
                  simp [heq] at htr
              | succ j =>
                refine ⟨j, ci, by simpa using hget, by omega, hcode, ?_⟩
                rcases hcond with h | ⟨k, hk, htr⟩
                · cases h
                · cases k with
                  | zero =>
                    rw [List.filter_cons_of_pos (by simpa using hc),
                      legacyTriggerAt_zero] at htr
                    simp [heq] at htr
                  | succ k =>
                    refine Or.inr ⟨k, ?_, ?_⟩
                    · rw [codeCellsBefore_cons_succ, hc] at hk
                      simp at hk
                      omega
                    · rw [List.filter_cons_of_pos (by simpa using hc),
                        legacyTriggerAt_shift] at htr
                      exact htr
          · intro j ci hget hcode hnotin
            rw [hloop] at hnotin ⊢
            cases j with
            | zero =>
              simp at hget
              subst hget
              cases pcs <;> rfl
            | succ j =>
              have : (idx + 1) + j ∉
                  (legacyLoop runCell pcs.tail false rest env (idx + 1)).2.2 := by
                intro hmem
                apply hnotin
                have he : idx + (j + 1) = (idx + 1) + j := by omega
                rw [he]
                exact hmem
              have h2 := ih2 j ci (by simpa using hget) hcode this
              simp only [List.get?_cons_succ]
              rw [h2, codeCellsBefore_cons_succ, hc]
              simp [getD_tail, Nat.add_comm]
        | true =>
          -- execute branch, off-script already set
          obtain ⟨ih1, ih2⟩ := ih pcs.tail true (runCell c env).2 (idx + 1)
          have hloop : legacyLoop runCell pcs true (c :: rest) env idx =
              ((runCell c env).1 ::
                (legacyLoop runCell pcs.tail true rest (runCell c env).2 (idx + 1)).1,
               (legacyLoop runCell pcs.tail true rest (runCell c env).2 (idx + 1)).2.1,
               idx :: (legacyLoop runCell pcs.tail true rest (runCell c env).2 (idx + 1)).2.2) := by
            simp [legacyLoop, hc]
          constructor
          · intro i
            rw [hloop]
            simp only [List.mem_cons]
            rw [ih1 i]
            constructor
            · rintro (rfl | ⟨j, ci, hget, hi, hcode, _⟩)
              · exact ⟨0, c, by simp, by omega, hc, Or.inl (by trivial)⟩
              · exact ⟨j + 1, ci, by simpa using hget, by omega, hcode, Or.inl (by trivial)⟩
            · rintro ⟨j, ci, hget, hi, hcode, _⟩
              cases j with
              | zero => exact Or.inl (by omega)
              | succ j =>
                exact Or.inr ⟨j, ci, by simpa using hget, by omega, hcode, Or.inl (by trivial)⟩
          · intro j ci hget hcode hnotin
            rw [hloop] at hnotin
            cases j with
            | zero =>
              exact absurd (by simp) hnotin
            | succ j =>
              have : (idx + 1) + j ∉
                  (legacyLoop runCell pcs.tail true rest (runCell c env).2 (idx + 1)).2.2 := by
                intro hmem
                apply hnotin
                simp only [List.mem_cons]
                right
                have : idx + (j + 1) = (idx + 1) + j := by omega
                rw [this]
                exact hmem
              have h2 := ih2 j ci (by simpa using hget) hcode this
              rw [hloop]
              simp only [List.get?_cons_succ]
              rw [h2, codeCellsBefore_cons_succ, hc]
              simp [getD_tail, Nat.add_comm]
      · -- execute branch: content differs at this code position
        obtain ⟨ih1, ih2⟩ := ih pcs.tail true (runCell c env).2 (idx + 1)
        have heq' : ¬ c.content = (pcs.head?.getD (emptyCodeCell (α := α))).content := by
          cases pcs <;> simpa using heq
        have hloop : legacyLoop runCell pcs off (c :: rest) env idx =
            ((runCell c env).1 ::
              (legacyLoop runCell pcs.tail true rest (runCell c env).2 (idx + 1)).1,
             (legacyLoop runCell pcs.tail true rest (runCell c env).2 (idx + 1)).2.1,
             idx :: (legacyLoop runCell pcs.tail true rest (runCell c env).2 (idx + 1)).2.2) := by
          simp [legacyLoop, hc, heq']
        have htr0 : legacyTriggerAt pcs ((c :: rest).filter Cell.is_code) 0 = true := by
          rw [List.filter_cons_of_pos (by simpa using hc), legacyTriggerAt_zero]
          simp [heq']
        constructor
        · intro i
          rw [hloop]
          simp only [List.mem_cons]
          rw [ih1 i]
          constructor
          · rintro (rfl | ⟨j, ci, hget, hi, hcode, _⟩)
            · exact ⟨0, c, by simp, by omega, hc, Or.inr ⟨0, Nat.zero_le _, htr0⟩⟩
            · exact ⟨j + 1, ci, by simpa using hget, by omega, hcode,
                Or.inr ⟨0, Nat.zero_le _, htr0⟩⟩
          · rintro ⟨j, ci, hget, hi, hcode, _⟩
            cases j with
            | zero => exact Or.inl (by omega)
            | succ j =>
              exact Or.inr ⟨j, ci, by simpa using hget, by omega, hcode, Or.inl (by trivial)⟩
        · intro j ci hget hcode hnotin
          rw [hloop] at hnotin
          cases j with
          | zero =>
            exact absurd (by simp) hnotin
          | succ j =>
            have : (idx + 1) + j ∉
                (legacyLoop runCell pcs.tail true rest (runCell c env).2 (idx + 1)).2.2 := by
              intro hmem
              apply hnotin
              simp only [List.mem_cons]
              right
              have : idx + (j + 1) = (idx + 1) + j := by omega
              rw [this]
              exact hmem
            have h2 := ih2 j ci (by simpa using hget) hcode this
            rw [hloop]
            simp only [List.get?_cons_succ]
            rw [h2, codeCellsBefore_cons_succ, hc]
            simp [getD_tail, Nat.add_comm]
    · -- markdown cell: passed through unchanged
      have hcF : c.is_code = false := by simpa using hc
      obtain ⟨ih1, ih2⟩ := ih pcs off env (idx + 1)
      have hloop : legacyLoop runCell pcs off (c :: rest) env idx =
          (c :: (legacyLoop runCell pcs off rest env (idx + 1)).1,
           (legacyLoop runCell pcs off rest env (idx + 1)).2.1,
           (legacyLoop runCell pcs off rest env (idx + 1)).2.2) := by
        simp [legacyLoop, hc]
      have hfc : (c :: rest).filter Cell.is_code = rest.filter Cell.is_code :=
        List.filter_cons_of_neg (by simpa using hc)
      constructor
      · intro i
        rw [hloop]
        simp only []
        rw [ih1 i]
        constructor
        · rintro ⟨j, ci, hget, hi, hcode, hcond⟩
          refine ⟨j + 1, ci, by simpa using hget, by omega, hcode, ?_⟩
          rw [codeCellsBefore_cons_succ]
          simpa [hfc, hcF] using hcond
        · rintro ⟨j, ci, hget, hi, hcode, hcond⟩
          cases j with
          | zero =>
            simp at hget
            subst hget
            exact absurd hcode (by simpa using hc)
          | succ j =>
            refine ⟨j, ci, by simpa using hget, by omega, hcode, ?_⟩
            rw [codeCellsBefore_cons_succ] at hcond
            simp only [hcF] at hcond
            simpa [hfc] using hcond
      · intro j ci hget hcode hnotin
        rw [hloop] at hnotin ⊢
        cases j with
        | zero =>
          simp at hget
          subst hget
          exact absurd hcode (by simpa using hc)
        | succ j =>
          have : (idx + 1) + j ∉
              (legacyLoop runCell pcs off rest env (idx + 1)).2.2 := by
            intro hmem
            apply hnotin
            have : idx + (j + 1) = (idx + 1) + j := by omega
            rw [this]
            exact hmem
          have h2 := ih2 j ci (by simpa using hget) hcode this
          simp only [List.get?_cons_succ]
          rw [h2, codeCellsBefore_cons_succ]
          simp [hcF]

/-- C9 (confirmed): with dependency tracking disabled the processor
re-executes a code cell exactly when its content differs from the code
cell at the same code position of the previous pass or some earlier
code position already differed (once one code cell changes, every
later code cell is re-executed); every other code cell copies the run
record of the previous code cell at its code position. -/
theorem C9_legacy_rerun_iff {α σ} (runCell : Cell α → σ → Cell α × σ)
    (prev new : List (Cell α)) (env : σ) :
    (∀ i, i ∈ (processCellsLegacy runCell prev new env).2.2 ↔
      ∃ ci, new.get? i = some ci ∧ ci.is_code = true ∧
        ∃ k, k ≤ codeCellsBefore new i ∧
          legacyTriggerAt (prev.filter Cell.is_code) (new.filter Cell.is_code) k = true) ∧
    (∀ i ci, new.get? i = some ci → ci.is_code = true →
      i ∉ (processCellsLegacy runCell prev new env).2.2 →
      (processCellsLegacy runCell prev new env).1.get? i =
        some (copyExecution ci ((prev.filter Cell.is_code).getD (codeCellsBefore new i)
          (emptyCodeCell (α := α))))) := by
  obtain ⟨h1, h2⟩ := legacyLoop_spec runCell new (prev.filter Cell.is_code) false env 0
  constructor
  · intro i
    rw [show processCellsLegacy runCell prev new env =
      legacyLoop runCell (prev.filter Cell.is_code) false new env 0 from rfl]
    rw [h1 i]
    constructor
    · rintro ⟨j, ci, hget, hi, hcode, hcond⟩
      rcases hcond with h | ⟨k, hk, htr⟩
      · cases h
      · exact ⟨ci, by rw [show i = j by omega]; exact hget, hcode,
          k, by rw [show i = j by omega]; exact hk, htr⟩
    · rintro ⟨ci, hget, hcode, k, hk, htr⟩
      exact ⟨i, ci, hget, by omega, hcode, Or.inr ⟨k, hk, htr⟩⟩
  · intro i ci hget hcode hnotin
    have := h2 i ci hget hcode (by simpa using hnotin)
    simpa using this

/-- C9 witness: on the fixture where only the second code cell's
content changed, position 1 is re-executed and position 0 keeps the
previous run record. -/
theorem C9_witness :
    (1 ∈ (processCellsLegacy runCellMark legPrev legNew 10).2.2) ∧
    (processCellsLegacy runCellMark legPrev legNew 10).1.get? 0 =
      some (copyExecution (legNew.getD 0 (emptyCodeCell (α := Unit)))
        ((legPrev.filter Cell.is_code).getD (codeCellsBefore legNew 0)
          (emptyCodeCell (α := Unit)))) := by
  constructor
  · exact (C9_legacy_rerun_iff runCellMark legPrev legNew 10).1 1 |>.mpr
      ⟨{ type := CellType.CODE, content := "y = 3", lineno := 2 }, by decide, by decide,
        1, by decide, by decide⟩
  · exact (C9_legacy_rerun_iff runCellMark legPrev legNew 10).2 0
      { type := CellType.CODE, content := "x = 1", lineno := 1 } (by decide) (by decide)
      (by decide)

/-! ### Shared lemmas about the dependency-tracking processor -/

/-- `find?` only depends on the predicate's values on the list. -/
theorem find?_congr {β} (p q : β → Bool) :
    ∀ (l : List β), (∀ x ∈ l, p x = q x) → l.find? p = l.find? q := by
  intro l
  induction l with
  | nil => intro _; rfl
  | cons x l ih =>
    intro h
    have hx := h x (List.mem_cons_self _ _)
    rw [List.find?_cons, List.find?_cons, hx]
    cases q x
    · exact ih fun y hy => h y (List.mem_cons_of_mem _ hy)
    · rfl

/-- Annotation preserves the cell type. -/
theorem annotateCell_type {α} (A : Analyzer) (c : Cell α) :
    (annotateCell A c).type = c.type := by
  unfold annotateCell
  split <;> rfl

/-- Annotation preserves the content. -/
theorem annotateCell_content {α} (A : Analyzer) (c : Cell α) :
    (annotateCell A c).content = c.content := by
  unfold annotateCell
  split <;> rfl

/-- Annotation preserves code-ness. -/
theorem annotateCell_is_code {α} (A : Analyzer) (c : Cell α) :
    (annotateCell A c).is_code = c.is_code := by
  simp [Cell.is_code, annotateCell_type]

/-- A code cell's annotation carries the analyzer's sets. -/
theorem annotateCell_sets {α} (A : Analyzer) (c : Cell α) (h : c.is_code = true) :
    (annotateCell A c).provides = A.provides c.content ∧
    (annotateCell A c).requires = A.requires c.content := by
  simp [annotateCell, h]

/-- Positionwise view of `build_dependency_graph`. -/
theorem bdg_get? {α} (A : Analyzer) (cells : List (Cell α)) (i : Nat) :
    (buildDependencyGraph A cells).get? i =
      ((cells.get? i).map (annotateCell A)).map (fun c =>
        if c.is_code then
          { c with depends_on := dependsOnOf (cells.map (annotateCell A)) i }
        else c) := by
  simp [buildDependencyGraph, List.get?_eq_getElem?, Option.map_map]

/-- The graph-building step preserves each position's type and
content. -/
theorem bdg_view {α} (A : Analyzer) (cells : List (Cell α)) (i : Nat) :
    ((buildDependencyGraph A cells).get? i).map (fun c => (c.type, c.content)) =
      (cells.get? i).map (fun c => (c.type, c.content)) := by
  rw [bdg_get?]
  cases h : cells.get? i with
  | none => rfl
  | some c =>
    by_cases hic : (annotateCell A c).is_code = true
    · simp [hic, annotateCell_type, annotateCell_content]
    · simp [hic, annotateCell_type, annotateCell_content]

/-- The graph-building step preserves length. -/
theorem bdg_length {α} (A : Analyzer) (cells : List (Cell α)) :
    (buildDependencyGraph A cells).length = cells.length := by
  simp [buildDependencyGraph]

/-- A code cell of the built graph carries the analyzer's sets for its
own content. -/
theorem bdg_code_sets {α} (A : Analyzer) (cells : List (Cell α)) (i : Nat)
    (ci : Cell α) (h : (buildDependencyGraph A cells).get? i = some ci)
    (hcode : ci.is_code = true) :
    ci.provides = A.provides ci.content ∧ ci.requires = A.requires ci.content := by
  rw [bdg_get?] at h
  cases hc : cells.get? i with
  | none => rw [hc] at h; cases h
  | some c =>
    rw [hc] at h
    simp only [Option.map_some', Option.some_inj] at h
    by_cases hac : (annotateCell A c).is_code = true
    · rw [if_pos hac] at h
      have hcc : c.is_code = true := by rwa [annotateCell_is_code] at hac
      obtain ⟨hp, hr⟩ := annotateCell_sets A c hcc
      rw [← h]
      constructor
      · show (annotateCell A c).provides = A.provides (annotateCell A c).content
        rw [hp, annotateCell_content]
      · show (annotateCell A c).requires = A.requires (annotateCell A c).content
        rw [hr, annotateCell_content]
    · rw [if_neg hac] at h
      rw [← h] at hcode
      exact absurd hcode hac

/-- The minimum-delta fold of `matchPrev` settles on `i` itself as soon
as `i` is among the candidates (a delta of zero is uniquely minimal). -/
theorem matchPrev_fold (i : Nat) :
    ∀ (l : List Nat) (best : Option Nat), (i ∈ l ∨ best = some i) →
      l.foldl (fun best j =>
        match best with
        | none => some j
        | some b => if (i - j) + (j - i) < (i - b) + (b - i) then some j else some b)
        best = some i := by
  intro l
  induction l with
  | nil =>
    rintro best (h | rfl)
    · cases h
    · rfl
  | cons j l ih =>
    rintro best (hmem | rfl)
    · rcases List.mem_cons.mp hmem with rfl | hmem'
      · apply ih
        right
        cases best with
        | none => rfl
        | some b =>
          show (if (i - i) + (i - i) < (i - b) + (b - i) then some i else some b) = some i
          by_cases hb : (i - i) + (i - i) < (i - b) + (b - i)
          · simp [hb]
          · have hbj : b = i := by omega
            subst hbj
            simp
      · cases best with
        | none => exact ih _ (Or.inl hmem')
        | some b => exact ih _ (Or.inl hmem')
    · apply ih
      right
      have hni : ¬ ((i - j) + (j - i) < (i - i) + (i - i)) := by omega
      simp [hni]

/-- When the previous pass holds a code cell of the same content at the
same position, `matchPrev` matches a cell to that very position. -/
theorem matchPrev_self {α} (prev : List (Cell α)) (i : Nat) (ct : String)
    (pi : Cell α) (hget : prev.get? i = some pi) (hcode : pi.is_code = true)
    (hct : pi.content = ct) : matchPrev prev i ct = some i := by
  unfold matchPrev
  apply matchPrev_fold
  left
  rw [List.mem_filter]
  refine ⟨List.mem_range.mpr ?_, ?_⟩
  · by_contra hlt
    rw [List.get?_eq_none.mpr (by omega)] at hget
    cases hget
  · rw [List.get?_eq_getElem?] at hget
    simp [hget, hcode, hct]

/-- `runRec` ignores everything `copyExecution` does not copy. -/
theorem runRec_copyExecution {α} (dst src : Cell α) :
    runRec (copyExecution dst src) = runRec src := rfl

/-- Positionwise-equal passes keep their code-cell sub-sequences
aligned: filtered contents agree position by position, and the
previous code cell at a new code cell's code position is exactly the
previous cell at the same absolute position. -/
theorem filter_code_align {α} :
    ∀ (new prev : List (Cell α)),
      new.length = prev.length →
      (∀ i, (new.get? i).map Cell.type = (prev.get? i).map Cell.type) →
      (∀ i, (new.get? i).map Cell.content = (prev.get? i).map Cell.content) →
      (∀ k, ((new.filter Cell.is_code).get? k).map Cell.content =
        ((prev.filter Cell.is_code).get? k).map Cell.content) ∧
      (∀ i ci pi, new.get? i = some ci → prev.get? i = some pi → ci.is_code = true →
        (prev.filter Cell.is_code).getD (codeCellsBefore new i)
          (emptyCodeCell (α := α)) = pi) := by
  intro new
  induction new with
  | nil =>
    intro prev hlen _ _
    have : prev = [] := List.length_eq_zero.mp (by simpa using hlen.symm)
    subst this
    exact ⟨fun k => rfl, fun i ci pi h => by cases h⟩
  | cons c cs ih =>
    intro prev hlen htype hcontent
    cases prev with
    | nil => cases hlen
    | cons p ps =>
      have htc : c.type = p.type := by
        have := htype 0
        simpa using this
      have hcc : c.content = p.content := by
        have := hcontent 0
        simpa using this
      have hic : c.is_code = p.is_code := by simp [Cell.is_code, htc]
      obtain ⟨ih1, ih2⟩ := ih ps (by simpa using hlen)
        (fun i => by simpa using htype (i + 1))
        (fun i => by simpa using hcontent (i + 1))
      constructor
      · intro k
        by_cases hc : c.is_code = true
        · rw [List.filter_cons_of_pos (by simpa using hc),
            List.filter_cons_of_pos (by simp [← hic, hc])]
          cases k with
          | zero => simpa using hcc
          | succ k => simpa using ih1 k
        · rw [List.filter_cons_of_neg (by simpa using hc),
            List.filter_cons_of_neg (by simp [← hic, hc])]
          exact ih1 k
      · intro i ci pi hgn hgp hcode
        cases i with
        | zero =>
          simp only [List.get?_cons_zero, Option.some_inj] at hgn hgp
          subst hgn; subst hgp
          rw [List.filter_cons_of_pos (by simp [← hic, hcode])]
          rfl
        | succ j =>
          simp only [List.get?_cons_succ] at hgn hgp
          have := ih2 j ci pi hgn hgp hcode
          by_cases hc : c.is_code = true
          · rw [List.filter_cons_of_pos (by simp [← hic, hc]),
              codeCellsBefore_cons_succ]
            simp only [hc, if_true]
            rw [Nat.add_comm 1 _]
            simpa [List.getD_cons_succ] using this
          · rw [List.filter_cons_of_neg (by simp [← hic, hc]),
              codeCellsBefore_cons_succ]
            simp only [hc, if_false]
            simpa using this

/-! ### C2: unchanged second pass -/

/-- C2 (amended): re-processing the same parsed cell sequence invokes
the evaluator on no code cell and carries every run record over
unchanged (counter offset zero) — in dependency-tracking mode provided
no code cell of the first pass recorded an error (an errored cell is
deliberately re-run, see the counterexample), and in legacy mode
unconditionally (the legacy walk compares only content).  The passes
are "the same" positionwise: same length, same cell types and
contents; for the dependency mode the previous pass carries the
analyzer's annotations, as the processor leaves them. -/
theorem C2_second_pass_no_rerun {α σ} (A : Analyzer) (runCell : Cell α → σ → Cell α × σ)
    (prev new : List (Cell α)) (env : σ)
    (hlen : new.length = prev.length)
    (htype : ∀ i, (new.get? i).map Cell.type = (prev.get? i).map Cell.type)
    (hcontent : ∀ i, (new.get? i).map Cell.content = (prev.get? i).map Cell.content) :
    ((∀ i pi, prev.get? i = some pi → pi.is_code = true →
        pi.provides = A.provides pi.content ∧ pi.requires = A.requires pi.content) →
      (∀ i pi, prev.get? i = some pi → pi.is_code = true → pi.error = none) →
      ((processCellsWithDeps A runCell prev new env).2.2 = [] ∧
        ∀ i ci pi, new.get? i = some ci → prev.get? i = some pi → ci.is_code = true →
          ((processCellsWithDeps A runCell prev new env).1.get? i).map runRec =
            some (runRec pi))) ∧
    ((processCellsLegacy runCell prev new env).2.2 = [] ∧
      ∀ i ci pi, new.get? i = some ci → prev.get? i = some pi → ci.is_code = true →
        ((processCellsLegacy runCell prev new env).1.get? i).map runRec =
          some (runRec pi)) := by
  have hview : ∀ i, ((buildDependencyGraph A new).get? i).map (fun c => (c.type, c.content)) =
      (prev.get? i).map (fun c => (c.type, c.content)) := by
    intro i
    rw [bdg_view]
    cases hn : new.get? i with
    | none =>
      have h1 := htype i
      rw [hn] at h1
      cases hp : prev.get? i with
      | none => rfl
      | some pi => rw [hp] at h1; cases h1
    | some ci =>
      have h1 := htype i
      have h2 := hcontent i
      rw [hn] at h1 h2
      cases hp : prev.get? i with
      | none => rw [hp] at h1; cases h1
      | some pi =>
        rw [hp] at h1 h2
        simp only [Option.map_some', Option.some_inj] at h1 h2 ⊢
        rw [h1, h2]
  have hsome : ∀ i ci', (buildDependencyGraph A new).get? i = some ci' →
      ∃ pi, prev.get? i = some pi ∧ pi.type = ci'.type ∧ pi.content = ci'.content := by
    intro i ci' h
    have hv := hview i
    rw [h] at hv
    cases hp : prev.get? i with
    | none => rw [hp] at hv; cases hv
    | some pi =>
      rw [hp] at hv
      simp only [Option.map_some', Option.some_inj, Prod.mk.injEq] at hv
      exact ⟨pi, rfl, hv.1.symm, hv.2.symm⟩
  have hlen2 : (buildDependencyGraph A new).length = prev.length := by
    rw [bdg_length]; exact hlen
  have hcont2 : ∀ j, ((buildDependencyGraph A new).get? j).map Cell.content =
      (prev.get? j).map Cell.content := by
    intro j
    have hv := hview j
    cases hc2 : (buildDependencyGraph A new).get? j with
    | none =>
      rw [hc2] at hv
      cases hp : prev.get? j with
      | none => rfl
      | some pj => rw [hp] at hv; cases hv
    | some cj =>
      rw [hc2] at hv
      cases hp : prev.get? j with
      | none => rw [hp] at hv; cases hv
      | some pj =>
        rw [hp] at hv
        simp only [Option.map_some', Option.some_inj, Prod.mk.injEq] at hv ⊢
        rw [hv.2]
  have hlp : (∀ i pi, prev.get? i = some pi → pi.is_code = true →
      pi.provides = A.provides pi.content ∧ pi.requires = A.requires pi.content) →
      ∀ i n, latestProvider (buildDependencyGraph A new) i n =
        latestProvider prev i n := by
    intro hann i n
    unfold latestProvider
    apply find?_congr
    intro j _
    cases hc2 : (buildDependencyGraph A new).get? j with
    | none =>
      have hp : prev.get? j = none := by
        have hv := hview j
        rw [hc2] at hv
        cases hp : prev.get? j with
        | none => rfl
        | some pj => rw [hp] at hv; cases hv
      simp only [hc2, hp]
    | some cj =>
      obtain ⟨pj, hpj, htj, hcj⟩ := hsome j cj hc2
      by_cases hjc : cj.is_code = true
      · have hpjc : pj.is_code = true := by simpa [Cell.is_code, htj] using hjc
        have hprov : cj.provides = pj.provides := by
          obtain ⟨hp1, _⟩ := bdg_code_sets A new j cj hc2 hjc
          obtain ⟨hp2, _⟩ := hann j pj hpj hpjc
          rw [hp1, hp2, hcj]
        simp only [hc2, hpj, hjc, hpjc, hprov]
      · have hpjc : pj.is_code = false := by
          rw [Bool.eq_false_iff]
          intro h
          exact hjc (by simpa [Cell.is_code, htj] using h)
        have hjcF : cj.is_code = false := Bool.eq_false_iff.mpr hjc
        simp only [hc2, hpj, hjcF, hpjc, Bool.false_and]
  have hchanged : (∀ i pi, prev.get? i = some pi → pi.is_code = true →
      pi.provides = A.provides pi.content ∧ pi.requires = A.requires pi.content) →
      (∀ i pi, prev.get? i = some pi → pi.is_code = true → pi.error = none) →
      detectChangedCells prev (buildDependencyGraph A new) = [] := by
    intro hann hnoerr
    unfold detectChangedCells
    rw [List.filter_eq_nil_iff]
    intro i _
    cases hcg : (buildDependencyGraph A new).get? i with
    | none => simp [hcg]
    | some ci2 =>
      by_cases hic : ci2.is_code = true
      · obtain ⟨pi, hgp, hpt, hpc⟩ := hsome i ci2 hcg
        have hpic : pi.is_code = true := by simpa [Cell.is_code, hpt] using hic
        have hmatch : matchPrev prev i ci2.content = some i :=
          matchPrev_self prev i ci2.content pi hgp hpic hpc
        have herr : pi.error = none := hnoerr i pi hgp hpic
        have hord : orderingChanged prev (buildDependencyGraph A new) i i = false := by
          unfold orderingChanged
          rw [hcg, List.any_eq_false]
          intro n _
          have hpceq : providerContent (buildDependencyGraph A new) i n =
              providerContent prev i n := by
            unfold providerContent
            rw [hlp hann i n]
            cases hlpv : latestProvider prev i n with
            | none => rfl
            | some j =>
              exact hcont2 j
          simp [hpceq]
        have hgp2 : prev[i]? = some pi := by
          rw [← List.get?_eq_getElem?]; exact hgp
        simp [hcg, hic, hmatch, hord, hgp2, herr]
      · simp [hcg, hic]
  have hcond : (∀ i pi, prev.get? i = some pi → pi.is_code = true →
      pi.provides = A.provides pi.content ∧ pi.requires = A.requires pi.content) →
      (∀ i pi, prev.get? i = some pi → pi.is_code = true → pi.error = none) →
      (detectChangedCells prev (buildDependencyGraph A new) = [] ∧
        (buildDependencyGraph A new).length = prev.length) :=
    fun hann hnoerr => ⟨hchanged hann hnoerr, hlen2⟩
  obtain ⟨halign, hcA⟩ := filter_code_align new prev hlen htype hcontent
  obtain ⟨hs1, hs2⟩ := legacyLoop_spec runCell new (prev.filter Cell.is_code) false env 0
  have htrigF : ∀ k, legacyTriggerAt (prev.filter Cell.is_code)
      (new.filter Cell.is_code) k = false := by
    intro k
    unfold legacyTriggerAt
    cases hk : (new.filter Cell.is_code).get? k with
    | none => rfl
    | some c =>
      have h1 := halign k
      rw [hk] at h1
      cases hp : (prev.filter Cell.is_code).get? k with
      | none => rw [hp] at h1; cases h1
      | some pc =>
        rw [hp] at h1
        simp only [Option.map_some', Option.some_inj] at h1
        rw [List.getD_eq_getElem?_getD, ← List.get?_eq_getElem?, hp]
        simp [h1]
  have hlegexec : (processCellsLegacy runCell prev new env).2.2 = [] := by
    rw [List.eq_nil_iff_forall_not_mem]
    intro i hi
    obtain ⟨j, ci, _, _, _, hcond2⟩ := (hs1 i).mp hi
    rcases hcond2 with h | ⟨k, _, htr⟩
    · cases h
    · rw [htrigF k] at htr; cases htr
  refine ⟨fun hann hnoerr => ⟨?_, ?_⟩, hlegexec, ?_⟩
  · show (processCellsWithDeps A runCell prev new env).2.2 = []
    simp only [processCellsWithDeps, if_pos (hcond hann hnoerr)]
  · intro i ci pi hgn hgp hcode
    have hilen : i < prev.length := by
      by_contra h
      rw [List.get?_eq_none.mpr (by omega)] at hgp
      cases hgp
    obtain ⟨ci2, hci2⟩ : ∃ ci2, (buildDependencyGraph A new).get? i = some ci2 := by
      cases hc2 : (buildDependencyGraph A new).get? i with
      | none =>
        rw [List.get?_eq_none] at hc2
        omega
      | some x => exact ⟨x, rfl⟩
    obtain ⟨pi', hgp', hpt, hpc⟩ := hsome i ci2 hci2
    rw [hgp] at hgp'
    cases hgp'
    have hic2 : ci2.is_code = true := by
      have h1 := htype i
      rw [hgn, hgp] at h1
      simp only [Option.map_some', Option.some_inj] at h1
      have : pi.is_code = true := by simpa [Cell.is_code, h1] using hcode
      simpa [Cell.is_code, hpt] using this
    have hgetout : (processCellsWithDeps A runCell prev new env).1.get? i =
        ((buildDependencyGraph A new).get? i).map (fun c =>
          if decide (i < prev.length) && c.is_code then
            copyExecution c (prev.getD i (emptyCodeCell (α := α))) else c) := by
      simp only [processCellsWithDeps, if_pos (hcond hann hnoerr)]
      simp [List.get?_eq_getElem?]
    rw [hgetout, hci2]
    have hgetD : prev.getD i (emptyCodeCell (α := α)) = pi := by
      rw [List.getD_eq_getElem?_getD, ← List.get?_eq_getElem?, hgp]
      rfl
    have hdec : (decide (i < prev.length) && ci2.is_code) = true := by
      simp [hilen, hic2]
    simp only [Option.map_some', hdec, if_true]
    rw [hgetD, runRec_copyExecution]
  · intro i ci pi hgn hgp hcode
    have hnotin : i ∉ (processCellsLegacy runCell prev new env).2.2 := by
      rw [hlegexec]
      simp
    have h2 := hs2 i ci hgn hcode (by simpa using hnotin)
    show ((legacyLoop runCell (prev.filter Cell.is_code) false new env 0).1.get? i).map
        runRec = some (runRec pi)
    rw [h2, hcA i ci pi hgn hgp hcode]
    simp only [Option.map_some', runRec_copyExecution]

/-- C2 witness: re-processing the one-cell pass `x = 1` (clean first
run) invokes the evaluator on nothing in either mode and the copied
record matches the first pass; the legacy clause also fires on the
errored pass `1/0`, where the dependency mode re-runs. -/
theorem C2_witness :
    ((processCellsWithDeps emptyAnalyzer runCellMark prevOkFix newOkFix 0).2.2 = [] ∧
      ((processCellsWithDeps emptyAnalyzer runCellMark prevOkFix newOkFix 0).1.get? 0).map
        runRec = some (runRec (prevOkFix.getD 0 (emptyCodeCell (α := Unit))))) ∧
    (processCellsLegacy runCellMark prevOkFix newOkFix 0).2.2 = [] ∧
    (processCellsLegacy runCellMark prevErrFix newErrFix 0).2.2 = [] := by
  have h := C2_second_pass_no_rerun emptyAnalyzer runCellMark prevOkFix newOkFix 0
    (by decide)
    (by intro i; cases i <;> rfl)
    (by intro i; cases i <;> rfl)
  have herr := C2_second_pass_no_rerun emptyAnalyzer runCellMark prevErrFix newErrFix 0
    (by decide)
    (by intro i; cases i <;> rfl)
    (by intro i; cases i <;> rfl)
  have hd := h.1
    (by
      intro i pi hget hcode
      cases i with
      | zero => cases hget; exact ⟨rfl, rfl⟩
      | succ n => cases hget)
    (by
      intro i pi hget hcode
      cases i with
      | zero => cases hget; rfl
      | succ n => cases hget)
  refine ⟨⟨hd.1, ?_⟩, h.2.1, herr.2.1⟩
  exact hd.2 0 { type := CellType.CODE, content := "x = 1", lineno := 1 }
    { type := CellType.CODE, content := "x = 1", lineno := 1, counter := 3,
      stdout := "done\n" } rfl rfl rfl

/-- C2 counterexample: when the single cell of the first pass recorded
an error, re-processing the identical source in dependency-tracking
mode re-invokes the evaluator on it (executed set `[0]`, not `[]`). -/
theorem C2_counterexample :
    (processCellsWithDeps emptyAnalyzer runCellMark prevErrFix newErrFix 0).2.2 = [0] ∧
    (processCellsWithDeps emptyAnalyzer runCellMark prevErrFix newErrFix 0).2.2 ≠ [] := by
  constructor
  · decide
  · decide

/-! ### C1: single-edit rerun -/

/-- The graph-building step preserves each position's type. -/
theorem bdg_type {α} (A : Analyzer) (cells : List (Cell α)) (i : Nat) :
    ((buildDependencyGraph A cells).get? i).map Cell.type =
      (cells.get? i).map Cell.type := by
  have h := bdg_view A cells i
  cases h1 : (buildDependencyGraph A cells).get? i with
  | none =>
    rw [h1] at h
    cases h2 : cells.get? i with
    | none => rfl
    | some x => rw [h2] at h; cases h
  | some y =>
    rw [h1] at h
    cases h2 : cells.get? i with
    | none => rw [h2] at h; cases h
    | some x =>
      rw [h2] at h
      simp only [Option.map_some', Option.some_inj, Prod.mk.injEq] at h ⊢
      exact h.1

/-- The graph-building step preserves each position's content. -/
theorem bdg_content {α} (A : Analyzer) (cells : List (Cell α)) (i : Nat) :
    ((buildDependencyGraph A cells).get? i).map Cell.content =
      (cells.get? i).map Cell.content := by
  have h := bdg_view A cells i
  cases h1 : (buildDependencyGraph A cells).get? i with
  | none =>
    rw [h1] at h
    cases h2 : cells.get? i with
    | none => rfl
    | some x => rw [h2] at h; cases h
  | some y =>
    rw [h1] at h
    cases h2 : cells.get? i with
    | none => rw [h2] at h; cases h
    | some x =>
      rw [h2] at h
      simp only [Option.map_some', Option.some_inj, Prod.mk.injEq] at h ⊢
      exact h.2

/-- A latest provider lies strictly before the position it serves. -/
theorem latestProvider_lt {α} (cells : List (Cell α)) (i j : Nat) (n : String)
    (h : latestProvider cells i n = some j) : j < i := by
  unfold latestProvider at h
  have hmem := List.mem_of_find?_eq_some h
  rw [List.mem_reverse, List.mem_range] at hmem
  exact hmem

/-- `latestProvider` reads only code-ness and `provides`, which the
edge-recording pass of `build_dependency_graph` leaves untouched. -/
theorem latestProvider_bdg {α} (A : Analyzer) (cells : List (Cell α)) (i : Nat)
    (n : String) :
    latestProvider (buildDependencyGraph A cells) i n =
      latestProvider (cells.map (annotateCell A)) i n := by
  unfold latestProvider
  apply find?_congr
  intro j _
  have hg := bdg_get? A cells j
  have hm : (cells.map (annotateCell A)).get? j = (cells.get? j).map (annotateCell A) :=
    List.get?_map _ _ _
  cases hc : cells.get? j with
  | none =>
    rw [hg, hm, hc]
    rfl
  | some c0 =>
    rw [hg, hm, hc]
    by_cases hac : (annotateCell A c0).is_code = true
    · simp only [Option.map_some', if_pos hac]
      rfl
    · simp only [Option.map_some', if_neg hac]

/-- A code cell of the built graph records exactly the latest-provider
edges of its `requires` set. -/
theorem bdg_depends_on {α} (A : Analyzer) (cells : List (Cell α)) (i : Nat)
    (ci : Cell α) (h : (buildDependencyGraph A cells).get? i = some ci)
    (hcode : ci.is_code = true) :
    ci.depends_on = ci.requires.filterMap
      (latestProvider (buildDependencyGraph A cells) i) := by
  have hfun : latestProvider (cells.map (annotateCell A)) i =
      latestProvider (buildDependencyGraph A cells) i :=
    funext fun n => (latestProvider_bdg A cells i n).symm
  rw [bdg_get?] at h
  cases hc : cells.get? i with
  | none => rw [hc] at h; cases h
  | some c0 =>
    rw [hc] at h
    simp only [Option.map_some', Option.some_inj] at h
    by_cases hac : (annotateCell A c0).is_code = true
    · rw [if_pos hac] at h
      subst h
      show dependsOnOf (cells.map (annotateCell A)) i = _
      unfold dependsOnOf
      have hai : (cells.map (annotateCell A)).get? i = some (annotateCell A c0) := by
        rw [List.get?_map, hc]
        rfl
      rw [hai, hfun]
    · rw [if_neg hac] at h
      subst h
      exact absurd hcode hac

/-- A non-code cell passes through `build_dependency_graph`
unchanged. -/
theorem bdg_noncode {α} (A : Analyzer) (cells : List (Cell α)) (i : Nat)
    (ci : Cell α) (h : (buildDependencyGraph A cells).get? i = some ci)
    (hic : ci.is_code = false) : cells.get? i = some ci := by
  rw [bdg_get?] at h
  cases hc : cells.get? i with
  | none => rw [hc] at h; cases h
  | some c0 =>
    rw [hc] at h
    simp only [Option.map_some', Option.some_inj] at h
    by_cases hac : (annotateCell A c0).is_code = true
    · rw [if_pos hac] at h
      subst h
      rw [show ({ annotateCell A c0 with
            depends_on := dependsOnOf (cells.map (annotateCell A)) i } : Cell α).is_code =
          (annotateCell A c0).is_code from rfl] at hic
      rw [hic] at hac
      cases hac
    · rw [if_neg hac] at h
      subst h
      have hc0 : c0.is_code = false := by
        rw [← annotateCell_is_code A c0]
        exact hic
      simp [annotateCell, hc0]

/-- Changed positions are in the closure at any fuel. -/
theorem invalidAux_base {α} (cells : List (Cell α)) (ch : List Nat) (fuel i : Nat)
    (h : ch.contains i = true) : invalidAux cells ch fuel i = true := by
  cases fuel with
  | zero => exact h
  | succ f =>
    simp only [invalidAux, Bool.or_eq_true]
    exact Or.inl h

/-- Closure membership is monotone in the changed set. -/
theorem invalidAux_mono {α} (cells : List (Cell α)) (ch ch2 : List Nat)
    (hsub : ∀ x, ch.contains x = true → ch2.contains x = true) :
    ∀ fuel i, invalidAux cells ch fuel i = true → invalidAux cells ch2 fuel i = true := by
  intro fuel
  induction fuel with
  | zero => intro i h; exact hsub i h
  | succ f ih =>
    intro i h
    simp only [invalidAux, Bool.or_eq_true, List.any_eq_true, Bool.and_eq_true,
      decide_eq_true_eq] at h ⊢
    rcases h with h | ⟨j, hj, hlt, hrec⟩
    · exact Or.inl (hsub i h)
    · exact Or.inr ⟨j, hj, hlt, ih j hrec⟩

/-- Closure membership is monotone in the fuel. -/
theorem invalidAux_fuel_mono {α} (cells : List (Cell α)) (ch : List Nat) :
    ∀ fuel fuel2 i, fuel ≤ fuel2 → invalidAux cells ch fuel i = true →
      invalidAux cells ch fuel2 i = true := by
  intro fuel
  induction fuel with
  | zero => intro fuel2 i _ h; exact invalidAux_base cells ch fuel2 i h
  | succ f ih =>
    intro fuel2 i hle h
    cases fuel2 with
    | zero => omega
    | succ f2 =>
      simp only [invalidAux, Bool.or_eq_true, List.any_eq_true, Bool.and_eq_true,
        decide_eq_true_eq] at h ⊢
      rcases h with h | ⟨j, hj, hlt, hrec⟩
      · exact Or.inl h
      · exact Or.inr ⟨j, hj, hlt, ih f2 j (by omega) hrec⟩

/-- A position with a dependency edge to an earlier closure member is
itself in the closure. -/
theorem invalid_step {α} (cells : List (Cell α)) (ch : List Nat) (i j : Nat)
    (hj : j ∈ dependsOnAt cells i) (hlt : j < i)
    (h : invalidB cells ch j = true) : invalidB cells ch i = true := by
  unfold invalidB at h ⊢
  cases i with
  | zero => omega
  | succ k =>
    simp only [invalidAux, Bool.or_eq_true, List.any_eq_true, Bool.and_eq_true,
      decide_eq_true_eq]
    exact Or.inr ⟨j, hj, hlt, invalidAux_fuel_mono cells ch j k j (by omega) h⟩

/-- When every changed position already lies in the closure of `base`,
the closure of `changed` is contained in the closure of `base`. -/
theorem invalid_absorb {α} (cells : List (Cell α)) (ch base : List Nat)
    (hch : ∀ x, ch.contains x = true → invalidB cells base x = true) :
    ∀ fuel i, invalidAux cells ch fuel i = true → invalidB cells base i = true := by
  intro fuel
  induction fuel with
  | zero => intro i h; exact hch i h
  | succ f ih =>
    intro i h
    simp only [invalidAux, Bool.or_eq_true, List.any_eq_true, Bool.and_eq_true,
      decide_eq_true_eq] at h
    rcases h with h | ⟨j, hj, hlt, hrec⟩
    · exact hch i h
    · exact invalid_step cells base i j hj hlt (ih j hrec)

/-- Positionwise view of the copy step. -/
theorem copyStep_get? {α} (prev cells : List (Cell α)) (rerun : List Nat) (i : Nat) :
    (copyStep prev cells rerun).get? i = (cells.get? i).map (fun c =>
      if c.is_code && !(rerun.contains i) && decide (i < prev.length) then
        copyExecution c (prev.getD i (emptyCodeCell (α := α)))
      else c) := by
  simp [copyStep, List.get?_eq_getElem?]

/-- The copy step preserves each position's code-ness. -/
theorem copyStep_is_code {α} (prev cells : List (Cell α)) (rerun : List Nat) (i : Nat) :
    ((copyStep prev cells rerun).get? i).map Cell.is_code =
      (cells.get? i).map Cell.is_code := by
  rw [copyStep_get?]
  cases h : cells.get? i with
  | none => rfl
  | some ci =>
    simp only [Option.map_some', Option.some_inj]
    by_cases hc : (ci.is_code && !(rerun.contains i) && decide (i < prev.length)) = true
    · rw [if_pos hc]
      rfl
    · rw [if_neg hc]

/-- When the rerun list is duplicate-free and each listed position
holds a code cell, the execution loop executes exactly the listed
positions and leaves every other position untouched. -/
theorem execLoop_spec {α σ} (runCell : Cell α → σ → Cell α × σ) :
    ∀ (l : List Nat) (cells : List (Cell α)) (env : σ),
      (∀ i ∈ l, ((cells.get? i).map Cell.is_code) = some true) → l.Nodup →
      (execLoop runCell l cells env).2.2 = l ∧
      (∀ i, i ∉ l → (execLoop runCell l cells env).1.get? i = cells.get? i) := by
  intro l
  induction l with
  | nil => intro cells env _ _; exact ⟨rfl, fun i _ => rfl⟩
  | cons i rest ih =>
    intro cells env hcode hnd
    obtain ⟨ci, hci, hic⟩ : ∃ ci, cells.get? i = some ci ∧ ci.is_code = true := by
      have hh := hcode i (List.mem_cons_self _ _)
      cases hc : cells.get? i with
      | none => rw [hc] at hh; cases hh
      | some c =>
        rw [hc] at hh
        simp only [Option.map_some', Option.some_inj] at hh
        exact ⟨c, rfl, hh⟩
    have hnd2 := List.nodup_cons.mp hnd
    have hcode2 : ∀ j ∈ rest,
        (((cells.set i (runCell ci env).1).get? j).map Cell.is_code) = some true := by
      intro j hj
      have hne : i ≠ j := fun h => hnd2.1 (h ▸ hj)
      rw [List.get?_eq_getElem?, List.getElem?_set_ne hne, ← List.get?_eq_getElem?]
      exact hcode j (List.mem_cons_of_mem _ hj)
    obtain ⟨h1, h2⟩ := ih (cells.set i (runCell ci env).1) (runCell ci env).2 hcode2 hnd2.2
    have hred : execLoop runCell (i :: rest) cells env =
        ((execLoop runCell rest (cells.set i (runCell ci env).1) (runCell ci env).2).1,
         (execLoop runCell rest (cells.set i (runCell ci env).1) (runCell ci env).2).2.1,
         i :: (execLoop runCell rest (cells.set i (runCell ci env).1)
           (runCell ci env).2).2.2) := by
      simp only [execLoop, hci, hic, if_true]
    constructor
    · rw [hred]
      show i :: (execLoop runCell rest _ _).2.2 = i :: rest
      rw [h1]
    · intro j hj
      have hji : i ≠ j := fun h => hj (h ▸ List.mem_cons_self _ _)
      have hjr : j ∉ rest := fun h => hj (List.mem_cons_of_mem _ h)
      rw [hred]
      show (execLoop runCell rest _ _).1.get? j = cells.get? j
      rw [h2 j hjr, List.get?_eq_getElem?, List.getElem?_set_ne hji,
        ← List.get?_eq_getElem?]

set_option maxHeartbeats 2000000 in
/-- C1 (amended): editing the content of exactly one code cell `c` of
an error-free, analyzer-consistently annotated previous pass — the
edited content being genuinely new (matching no previous code cell)
while binding and reading the same names, prose cells carrying no stale
dependency edges — makes the dependency-tracking processor re-execute
exactly the transitive-dependents set of `c` (including `c`), and every
code cell outside that set keeps its previous run record.  Without the
error-free hypothesis the claim fails: a previously errored cell
re-runs even when it is not a dependent of `c` (see the
counterexample). -/
theorem C1_single_edit_rerun {α σ} (A : Analyzer) (runCell : Cell α → σ → Cell α × σ)
    (prev new : List (Cell α)) (env : σ) (c : Nat) (nc pc : Cell α)
    (hlen : new.length = prev.length)
    (htype : ∀ i, (new.get? i).map Cell.type = (prev.get? i).map Cell.type)
    (hcontent : ∀ i, i ≠ c →
      (new.get? i).map Cell.content = (prev.get? i).map Cell.content)
    (hnc : new.get? c = some nc) (hpc : prev.get? c = some pc)
    (hccode : nc.is_code = true)
    (hfresh : ∀ j pj, prev.get? j = some pj → pj.is_code = true →
      pj.content ≠ nc.content)
    (hann : ∀ i pi, prev.get? i = some pi → pi.is_code = true →
      pi.provides = A.provides pi.content ∧ pi.requires = A.requires pi.content)
    (hnoerr : ∀ i pi, prev.get? i = some pi → pi.is_code = true → pi.error = none)
    (hsets : A.provides nc.content = A.provides pc.content ∧
      A.requires nc.content = A.requires pc.content)
    (hmd : ∀ i ci, new.get? i = some ci → ci.is_code = false → ci.depends_on = []) :
    (processCellsWithDeps A runCell prev new env).2.2 = transitiveDependents A new c ∧
    (∀ i ci pi, new.get? i = some ci → prev.get? i = some pi → ci.is_code = true →
      i ∉ transitiveDependents A new c →
      ((processCellsWithDeps A runCell prev new env).1.get? i).map runRec =
        some (runRec pi)) := by
  have hbtypeP : ∀ j, ((buildDependencyGraph A new).get? j).map Cell.type =
      (prev.get? j).map Cell.type := fun j => (bdg_type A new j).trans (htype j)
  have hbcontP : ∀ j, j ≠ c → ((buildDependencyGraph A new).get? j).map Cell.content =
      (prev.get? j).map Cell.content := fun j hj =>
    (bdg_content A new j).trans (hcontent j hj)
  have hclen : c < new.length := by
    by_contra h
    rw [List.get?_eq_none.mpr (by omega)] at hnc
    cases hnc
  have hanc : (annotateCell A nc).is_code = true := by
    rw [annotateCell_is_code]
    exact hccode
  obtain ⟨cc, hccget, hcccode, hcccont⟩ :
      ∃ cc, (buildDependencyGraph A new).get? c = some cc ∧ cc.is_code = true ∧
        cc.content = nc.content := by
    refine ⟨{ annotateCell A nc with
      depends_on := dependsOnOf (new.map (annotateCell A)) c }, ?_, ?_, ?_⟩
    · rw [bdg_get?, hnc]
      simp only [Option.map_some', if_pos hanc]
    · exact hanc
    · exact annotateCell_content A nc
  have hmnone : matchPrev prev c nc.content = none := by
    simp only [matchPrev]
    have hcands : (List.range prev.length).filter (fun j =>
        match prev.get? j with
        | some pj => pj.is_code && pj.content = nc.content
        | none => false) = [] := by
      rw [List.filter_eq_nil_iff]
      intro j _
      cases hpj : prev.get? j with
      | none => simp [hpj]
      | some pj =>
        by_cases hjc : pj.is_code = true
        · have hne := hfresh j pj hpj hjc
          simp [hpj, hjc, hne]
        · have hF : pj.is_code = false := Bool.eq_false_iff.mpr hjc
          simp [hpj, hF]
    rw [hcands]
    rfl
  have hc_mem : c ∈ detectChangedCells prev (buildDependencyGraph A new) := by
    unfold detectChangedCells
    rw [List.mem_filter]
    refine ⟨List.mem_range.mpr (by rw [bdg_length]; exact hclen), ?_⟩
    have hccget2 : (buildDependencyGraph A new)[c]? = some cc := by
      rw [← List.get?_eq_getElem?]
      exact hccget
    simp [hccget2, hcccont, hmnone, hcccode]
  have hlp : ∀ i n, latestProvider (buildDependencyGraph A new) i n =
      latestProvider prev i n := by
    intro i n
    unfold latestProvider
    apply find?_congr
    intro j _
    cases hc2 : (buildDependencyGraph A new).get? j with
    | none =>
      have hp : prev.get? j = none := by
        have hv := hbtypeP j
        rw [hc2] at hv
        cases hp2 : prev.get? j with
        | none => rfl
        | some pj => rw [hp2] at hv; cases hv
      simp only [hc2, hp]
    | some cj =>
      obtain ⟨pj, hpj, htj⟩ : ∃ pj, prev.get? j = some pj ∧ pj.type = cj.type := by
        have hv := hbtypeP j
        rw [hc2] at hv
        cases hp2 : prev.get? j with
        | none => rw [hp2] at hv; cases hv
        | some pj =>
          rw [hp2] at hv
          simp only [Option.map_some', Option.some_inj] at hv
          exact ⟨pj, rfl, hv.symm⟩
      by_cases hjc : cj.is_code = true
      · have hpjc : pj.is_code = true := by simpa [Cell.is_code, htj] using hjc
        have hprov : cj.provides = pj.provides := by
          obtain ⟨hp1, _⟩ := bdg_code_sets A new j cj hc2 hjc
          obtain ⟨hp2, _⟩ := hann j pj hpj hpjc
          by_cases hjceq : j = c
          · subst hjceq
            have hpeq : pj = pc := by
              rw [hpj] at hpc
              exact Option.some_inj.mp hpc
            have hcjct : cj.content = nc.content := by
              have hv := bdg_content A new j
              rw [hc2, hnc] at hv
              simpa using hv
            rw [hp1, hp2, hcjct, hpeq]
            exact hsets.1
          · have hcc : cj.content = pj.content := by
              have hv := hbcontP j hjceq
              rw [hc2, hpj] at hv
              simpa using hv
            rw [hp1, hp2, hcc]
        simp only [hc2, hpj, hjc, hpjc, hprov]
      · have hpjc : pj.is_code = false := by
          rw [Bool.eq_false_iff]
          intro h
          exact hjc (by simpa [Cell.is_code, htj] using h)
        have hjcF : cj.is_code = false := Bool.eq_false_iff.mpr hjc
        simp only [hc2, hpj, hjcF, hpjc, Bool.false_and]
  have hchar : ∀ i, i ∈ detectChangedCells prev (buildDependencyGraph A new) →
      i = c ∨ (c ∈ dependsOnAt (buildDependencyGraph A new) i ∧ c < i) := by
    intro i hi
    by_cases hic : i = c
    · exact Or.inl hic
    right
    unfold detectChangedCells at hi
    rw [List.mem_filter] at hi
    have hpred := hi.2
    cases hg : (buildDependencyGraph A new).get? i with
    | none =>
      exfalso
      have hg2 : (buildDependencyGraph A new)[i]? = none := by
        rw [← List.get?_eq_getElem?]
        exact hg
      simp [hg2] at hpred
    | some ci =>
      have hg2 : (buildDependencyGraph A new)[i]? = some ci := by
        rw [← List.get?_eq_getElem?]
        exact hg
      simp only [List.get?_eq_getElem?, hg2] at hpred
      rw [Bool.and_eq_true] at hpred
      obtain ⟨hicode, hrest⟩ := hpred
      obtain ⟨pi, hp, hpt⟩ : ∃ pi, prev.get? i = some pi ∧ pi.type = ci.type := by
        have hv := hbtypeP i
        rw [hg] at hv
        cases hp2 : prev.get? i with
        | none => rw [hp2] at hv; cases hv
        | some pi =>
          rw [hp2] at hv
          simp only [Option.map_some', Option.some_inj] at hv
          exact ⟨pi, rfl, hv.symm⟩
      have hpicode : pi.is_code = true := by simpa [Cell.is_code, hpt] using hicode
      have hpcont : pi.content = ci.content := by
        have hv := hbcontP i hic
        rw [hg, hp] at hv
        simpa using hv.symm
      have hmatch : matchPrev prev i ci.content = some i :=
        matchPrev_self prev i ci.content pi hp hpicode hpcont
      simp only [hmatch] at hrest
      have herr : pi.error = none := hnoerr i pi hp hpicode
      have hp2 : prev[i]? = some pi := by
        rw [← List.get?_eq_getElem?]
        exact hp
      simp [hp2, herr] at hrest
      unfold orderingChanged at hrest
      simp only [hg] at hrest
      rw [List.any_eq_true] at hrest
      obtain ⟨n, hn, hne⟩ := hrest
      have hne2 : providerContent (buildDependencyGraph A new) i n ≠
          providerContent prev i n := by simpa using hne
      have hlpn := hlp i n
      cases hlpv : latestProvider prev i n with
      | none =>
        exfalso
        apply hne2
        unfold providerContent
        rw [hlpn, hlpv]
        rfl
      | some j =>
        by_cases hjc : j = c
        · subst hjc
          refine ⟨?_, latestProvider_lt prev i j n hlpv⟩
          unfold dependsOnAt
          rw [hg]
          show j ∈ ci.depends_on
          rw [bdg_depends_on A new i ci hg hicode]
          rw [List.mem_filterMap]
          refine ⟨n, hn, ?_⟩
          rw [hlpn]
          exact hlpv
        · exfalso
          apply hne2
          unfold providerContent
          rw [hlpn, hlpv]
          show ((buildDependencyGraph A new).get? j).map Cell.content =
            (prev.get? j).map Cell.content
          exact hbcontP j hjc
  have hc_contains : (detectChangedCells prev (buildDependencyGraph A new)).contains c =
      true := List.elem_iff.mpr hc_mem
  have hsingc : ([c] : List Nat).contains c = true :=
    List.elem_iff.mpr (List.mem_singleton.mpr rfl)
  have hsub1 : ∀ x, ([c] : List Nat).contains x = true →
      (detectChangedCells prev (buildDependencyGraph A new)).contains x = true := by
    intro x hx
    have hxc : x = c := by simpa using List.mem_of_elem_eq_true hx
    subst hxc
    exact hc_contains
  have habs1 : ∀ x, (detectChangedCells prev (buildDependencyGraph A new)).contains x =
      true → invalidB (buildDependencyGraph A new) [c] x = true := by
    intro x hx
    have hxmem : x ∈ detectChangedCells prev (buildDependencyGraph A new) :=
      List.mem_of_elem_eq_true hx
    rcases hchar x hxmem with rfl | ⟨hdep, hlt⟩
    · exact invalidAux_base _ _ _ _ hsingc
    · exact invalid_step _ _ x c hdep hlt (invalidAux_base _ _ _ _ hsingc)
  have hinv : ∀ i, invalidB (buildDependencyGraph A new)
      (detectChangedCells prev (buildDependencyGraph A new)) i =
      invalidB (buildDependencyGraph A new) [c] i := by
    intro i
    cases h1 : invalidB (buildDependencyGraph A new)
        (detectChangedCells prev (buildDependencyGraph A new)) i with
    | false =>
      cases h2 : invalidB (buildDependencyGraph A new) [c] i with
      | false => rfl
      | true =>
        exfalso
        have hmono := invalidAux_mono (buildDependencyGraph A new) [c]
          (detectChangedCells prev (buildDependencyGraph A new)) hsub1 i i h2
        have h1a : invalidAux (buildDependencyGraph A new)
            (detectChangedCells prev (buildDependencyGraph A new)) i i = false := h1
        exact Bool.false_ne_true (h1a.symm.trans hmono)
    | true =>
      exact (invalid_absorb (buildDependencyGraph A new) _ [c] habs1 i i h1).symm
  have hrerun_eq : findCellsToRerun (buildDependencyGraph A new)
      (detectChangedCells prev (buildDependencyGraph A new)) =
      transitiveDependents A new c := by
    unfold transitiveDependents findCellsToRerun
    exact List.filter_congr (fun i _ => hinv i)
  have hmdinv : ∀ i ci, (buildDependencyGraph A new).get? i = some ci →
      ci.is_code = false → invalidB (buildDependencyGraph A new)
        (detectChangedCells prev (buildDependencyGraph A new)) i = false := by
    intro i ci hget hF
    have hnotch : (detectChangedCells prev (buildDependencyGraph A new)).contains i =
        false := by
      rw [Bool.eq_false_iff]
      intro hcont
      have hmem : i ∈ detectChangedCells prev (buildDependencyGraph A new) :=
        List.mem_of_elem_eq_true hcont
      unfold detectChangedCells at hmem
      rw [List.mem_filter] at hmem
      have hpred := hmem.2
      simp only [hget] at hpred
      rw [hF] at hpred
      simp at hpred
    have hdep : dependsOnAt (buildDependencyGraph A new) i = [] := by
      unfold dependsOnAt
      rw [hget]
      exact hmd i ci (bdg_noncode A new i ci hget hF) hF
    unfold invalidB
    cases i with
    | zero => exact hnotch
    | succ k => simp only [invalidAux, hnotch, hdep, Bool.false_or, List.any_nil]
  have hcodes : ∀ i ∈ findCellsToRerun (buildDependencyGraph A new)
      (detectChangedCells prev (buildDependencyGraph A new)),
      (((copyStep prev (buildDependencyGraph A new)
        (findCellsToRerun (buildDependencyGraph A new)
          (detectChangedCells prev (buildDependencyGraph A new)))).get? i).map
        Cell.is_code) = some true := by
    intro i hi
    have hi2 := hi
    unfold findCellsToRerun at hi2
    rw [List.mem_filter, List.mem_range] at hi2
    obtain ⟨hilen, hinvi⟩ := hi2
    obtain ⟨ci, hg⟩ : ∃ ci, (buildDependencyGraph A new).get? i = some ci := by
      cases hgg : (buildDependencyGraph A new).get? i with
      | none =>
        rw [List.get?_eq_none] at hgg
        omega
      | some x => exact ⟨x, rfl⟩
    have hicode : ci.is_code = true := by
      by_contra hF
      have hFc : ci.is_code = false := Bool.eq_false_iff.mpr hF
      have hninv := hmdinv i ci hg hFc
      exact absurd (hinvi.symm.trans hninv) (by decide)
    rw [copyStep_is_code, hg]
    simp [hicode]
  have hnodup : (findCellsToRerun (buildDependencyGraph A new)
      (detectChangedCells prev (buildDependencyGraph A new))).Nodup := by
    unfold findCellsToRerun
    exact (List.nodup_range _).filter _
  have hcne : ¬(detectChangedCells prev (buildDependencyGraph A new) = [] ∧
      (buildDependencyGraph A new).length = prev.length) := by
    rintro ⟨h0, _⟩
    rw [h0] at hc_mem
    cases hc_mem
  have hproc : processCellsWithDeps A runCell prev new env =
      execLoop runCell
        (findCellsToRerun (buildDependencyGraph A new)
          (detectChangedCells prev (buildDependencyGraph A new)))
        (copyStep prev (buildDependencyGraph A new)
          (findCellsToRerun (buildDependencyGraph A new)
            (detectChangedCells prev (buildDependencyGraph A new)))) env := by
    simp only [processCellsWithDeps]
    rw [if_neg hcne]
    rfl
  obtain ⟨hexecs, hpres⟩ := execLoop_spec runCell
    (findCellsToRerun (buildDependencyGraph A new)
      (detectChangedCells prev (buildDependencyGraph A new)))
    (copyStep prev (buildDependencyGraph A new)
      (findCellsToRerun (buildDependencyGraph A new)
        (detectChangedCells prev (buildDependencyGraph A new)))) env hcodes hnodup
  refine ⟨?_, ?_⟩
  · rw [hproc]
    exact hexecs.trans hrerun_eq
  · intro i ci pi hgn hgp hcode hnotin
    have hni : i ∉ findCellsToRerun (buildDependencyGraph A new)
        (detectChangedCells prev (buildDependencyGraph A new)) := by
      rw [hrerun_eq]
      exact hnotin
    rw [hproc, hpres i hni, copyStep_get?]
    have hilen : i < prev.length := by
      by_contra h
      rw [List.get?_eq_none.mpr (by omega)] at hgp
      cases hgp
    obtain ⟨ci2, hci2⟩ : ∃ ci2, (buildDependencyGraph A new).get? i = some ci2 := by
      cases hgg : (buildDependencyGraph A new).get? i with
      | none =>
        rw [List.get?_eq_none, bdg_length] at hgg
        omega
      | some x => exact ⟨x, rfl⟩
    have hic2 : ci2.is_code = true := by
      have hv := hbtypeP i
      rw [hci2, hgp] at hv
      simp only [Option.map_some', Option.some_inj] at hv
      have hpit : pi.type = CellType.CODE := by
        have h1 := htype i
        rw [hgn, hgp] at h1
        simp only [Option.map_some', Option.some_inj] at h1
        rw [← h1]
        simpa [Cell.is_code] using hcode
      simp [Cell.is_code, hv, hpit]
    have hcontF : ((findCellsToRerun (buildDependencyGraph A new)
        (detectChangedCells prev (buildDependencyGraph A new))).contains i) = false := by
      rw [Bool.eq_false_iff]
      intro hcont
      exact hni (List.mem_of_elem_eq_true hcont)
    have hgetD : prev.getD i (emptyCodeCell (α := α)) = pi := by
      rw [List.getD_eq_getElem?_getD, ← List.get?_eq_getElem?, hgp]
      rfl
    have hdec : (ci2.is_code && !((findCellsToRerun (buildDependencyGraph A new)
        (detectChangedCells prev (buildDependencyGraph A new))).contains i) &&
        decide (i < prev.length)) = true := by
      simp [hic2, hcontF, hilen, hni]
    rw [hci2]
    simp only [Option.map_some', hdec, if_true]
    rw [hgetD, runRec_copyExecution]

/-- C1 witness: scenario E1 — editing the middle assignment of a clean
three-cell pass re-executes exactly its transitive dependents, that set
is the edited cell alone, and the untouched first cell keeps its run
record. -/
theorem C1_witness :
    (processCellsWithDeps e1Analyzer runCellMark e1Prev e1New 4).2.2 =
      transitiveDependents e1Analyzer e1New 1 ∧
    transitiveDependents e1Analyzer e1New 1 = [1] ∧
    ((processCellsWithDeps e1Analyzer runCellMark e1Prev e1New 4).1.get? 0).map runRec =
      some (runRec
        ({ type := CellType.CODE, content := "x = 1", lineno := 2,
           counter := 1, provides := ["x"] } : Cell Unit)) := by
  have h := C1_single_edit_rerun e1Analyzer runCellMark e1Prev e1New 4 1
    ({ type := CellType.CODE, content := "y = x + 2", lineno := 4 } : Cell Unit)
    ({ type := CellType.CODE, content := "y = x + 1", lineno := 4, counter := 2,
       provides := ["y"], requires := ["x"] } : Cell Unit)
    (by decide)
    (by intro i; rcases i with _ | _ | _ | i <;> rfl)
    (by
      intro i hi
      rcases i with _ | _ | _ | i
      · rfl
      · exact absurd rfl hi
      · rfl
      · rfl)
    rfl rfl rfl
    (by
      intro j pj hg hc
      rcases j with _ | _ | _ | j <;> cases hg <;> decide)
    (by
      intro i pi hg hc
      rcases i with _ | _ | _ | i <;> cases hg <;> exact ⟨by decide, by decide⟩)
    (by
      intro i pi hg hc
      rcases i with _ | _ | _ | i <;> cases hg <;> rfl)
    ⟨by decide, by decide⟩
    (by
      intro i ci hg hF
      rcases i with _ | _ | _ | i <;> cases hg <;> exact absurd hF (by decide))
  refine ⟨h.1, by decide, ?_⟩
  exact h.2 0
    ({ type := CellType.CODE, content := "x = 1", lineno := 2 } : Cell Unit)
    ({ type := CellType.CODE, content := "x = 1", lineno := 2, counter := 1,
       provides := ["x"] } : Cell Unit)
    rfl rfl rfl (by decide)

/-- C1 counterexample: editing only the second cell while the first
pass's untouched first cell recorded an error re-executes both cells,
although the errored cell is not a transitive dependent of the edited
one — the previously-errored rule of §4.3 Phase 1 overrides the
exactness claim. -/
theorem C1_counterexample :
    (processCellsWithDeps emptyAnalyzer runCellMark prevEditFix newEditFix 100).2.2 =
      [0, 1] ∧
    transitiveDependents emptyAnalyzer newEditFix 1 = [1] := by
  exact ⟨by decide, by decide⟩

end Plaque


